import Mathlib

/-!
Verification development for the structural comparison engine of the
diffchecker repository: the semantic diff engine (`compareDeep`,
`computeSemanticDiff`), the canonicalizer (`normalizeContent`,
`sortObjectDeep`, `sortArraysDeep`) and the textual diff adapter
(`computeDiff`, `computeWordDiff`).

Modelling conventions:
- Parsed JSON/YAML documents are a tagged union `Value`; maps are ordered
  association lists (JS object key order), numbers are integers (the claims
  under verification only involve integer numbers).
- The external parser libraries (`JSON.parse`, `js-yaml`'s `load`) and the
  external LCS diff primitives (`diffLines`, `diffWords` from the `diff`
  package) are black boxes per the spec; they enter the embedding as
  function parameters.
- JS string comparison (`Array.prototype.sort` default order and
  `localeCompare` as used on serialized forms) is modelled as lexicographic
  order on characters; JS `toLowerCase`/`trim`/whitespace classes are
  modelled with Lean's `String.toLower`/`String.trim`/`Char.isWhitespace`.
-/

/-- Parsed document values: the value tree produced by the external parser
(`null`, booleans, numbers, strings, arrays, objects). Objects are ordered
association lists, mirroring JS object key order. -/
inductive Value where
  | vnull : Value
  | vbool : Bool → Value
  | vnum : Int → Value
  | vstr : String → Value
  | varr : List Value → Value
  | vmap : List (String × Value) → Value
  deriving Repr

/-- Embeds `getType` (semantic diff module): `null` check, `Array.isArray`,
then `typeof`. -/
def getType : Value → String
  | .vnull => "null"
  | .varr _ => "array"
  | .vbool _ => "boolean"
  | .vnum _ => "number"
  | .vstr _ => "string"
  | .vmap _ => "object"

/-- Embeds the `DiffOptions` interface (types module), field for field. -/
structure DiffOptions where
  ignoreKeyOrder : Bool
  ignoreWhitespace : Bool
  ignoreCase : Bool
  ignoreArrayOrder : Bool
  syncScroll : Bool
  showWordDiff : Bool
  deriving Repr, DecidableEq

/-- Embeds `FormatType` (types module). -/
inductive FormatType where
  | json : FormatType
  | yaml : FormatType
  | auto : FormatType
  deriving Repr, DecidableEq

/-- Embeds `SemanticChangeType` (types module). -/
inductive SemanticChangeType where
  | added : SemanticChangeType
  | removed : SemanticChangeType
  | modified : SemanticChangeType
  | type_changed : SemanticChangeType
  deriving Repr, DecidableEq

/-- Embeds the `SemanticChange` interface; optional fields become `Option`. -/
structure SemanticChange where
  path : String
  type : SemanticChangeType
  oldValue : Option Value := none
  newValue : Option Value := none
  oldType : Option String := none
  newType : Option String := none
  deriving Repr

/-- Embeds the summary object computed in `computeSemanticDiff`. -/
structure Summary where
  added : Nat
  removed : Nat
  modified : Nat
  typeChanged : Nat
  total : Nat
  deriving Repr, DecidableEq

/-- Embeds the `SemanticDiffResult` interface. -/
structure SemanticDiffResult where
  changes : List SemanticChange
  summary : Summary
  isIdentical : Bool
  deriving Repr

/-- Character order by code point, modelling JS UTF-16 code unit order. -/
def charListLt : List Char → List Char → Bool
  | _, [] => false
  | [], _ :: _ => true
  | a :: as, b :: bs => a.toNat < b.toNat || (a == b && charListLt as bs)

/-- Lexicographic string order, modelling the order used by JS
`Array.prototype.sort()` (default comparator) and by the serialized-form
comparisons done via `localeCompare` in `sortArray`/`sortArraysDeep`. -/
def strLe (a b : String) : Bool := a == b || charListLt a.data b.data

/-- JS `String.prototype.trim`, modelled over the character list. -/
def jsTrim (s : String) : String :=
  String.mk (((s.data.dropWhile Char.isWhitespace).reverse.dropWhile Char.isWhitespace).reverse)

/-- Character-list prefix test: does the first list start with the second? -/
def startsWithChars : List Char → List Char → Bool
  | _, [] => true
  | [], _ :: _ => false
  | c :: cs, p :: ps => c == p && startsWithChars cs ps

/-- JS `String.prototype.startsWith`, modelled over character lists. -/
def strStartsWith (s p : String) : Bool := startsWithChars s.data p.data

/-- JS `String.prototype.toLowerCase`, modelled with Lean's ASCII
character lowercasing. -/
def jsToLower (s : String) : String := String.mk (s.data.map Char.toLower)

/-- Insertion of one element into a sorted list, the auxiliary step of
`isortLe`. -/
def insertLe (le : α → α → Bool) (x : α) : List α → List α
  | [] => [x]
  | y :: ys => if le x y then x :: y :: ys else y :: insertLe le x ys

/-- Stable sort by a boolean comparator, modelling JS
`Array.prototype.sort` (which is stable). -/
def isortLe (le : α → α → Bool) : List α → List α
  | [] => []
  | x :: xs => insertLe le x (isortLe le xs)

/-- Hex digit for JSON string escapes of control characters. -/
def hexDigit (n : Nat) : Char :=
  if n < 10 then Char.ofNat (48 + n) else Char.ofNat (87 + n)

/-- One character of `JSON.stringify` string escaping. -/
def escChar (c : Char) : String :=
  if c = '"' then "\\\""
  else if c = '\\' then "\\\\"
  else if c = '\n' then "\\n"
  else if c = '\t' then "\\t"
  else if c = '\r' then "\\r"
  else if c = '\x08' then "\\b"
  else if c = '\x0c' then "\\f"
  else if c.toNat < 32 then
    String.mk ['\\', 'u', '0', '0', hexDigit (c.toNat / 16), hexDigit (c.toNat % 16)]
  else String.singleton c

/-- JSON string literal quoting, as `JSON.stringify` produces it. -/
def quoteStr (s : String) : String :=
  "\"" ++ String.join (s.data.map escChar) ++ "\""

mutual
/-- Compact serialization, modelling `JSON.stringify(v)` (no indent), the
form used by the array sort comparators. -/
def jstr : Value → String
  | .vnull => "null"
  | .vbool b => if b then "true" else "false"
  | .vnum n => toString n
  | .vstr s => quoteStr s
  | .varr xs => "[" ++ jstrElems xs ++ "]"
  | .vmap es => "\x7b" ++ jstrEntries es ++ "\x7d"

/-- Comma-joined compact serialization of array elements. -/
def jstrElems : List Value → String
  | [] => ""
  | [x] => jstr x
  | x :: xs => jstr x ++ "," ++ jstrElems xs

/-- Comma-joined compact serialization of object entries. -/
def jstrEntries : List (String × Value) → String
  | [] => ""
  | [e] => quoteStr e.1 ++ ":" ++ jstr e.2
  | e :: es => quoteStr e.1 ++ ":" ++ jstr e.2 ++ "," ++ jstrEntries es
end

/-- Key comparator for object entry sorting (`Object.keys(obj).sort()`). -/
def entryKeyLe (a b : String × Value) : Bool := strLe a.1 b.1

mutual
/-- Embeds `sortObject` (semantic diff module): arrays are mapped over,
objects get their keys sorted and their values recursively processed,
scalars pass through. -/
def sortObject : Value → Value
  | .vnull => .vnull
  | .vbool b => .vbool b
  | .vnum n => .vnum n
  | .vstr s => .vstr s
  | .varr xs => .varr (sortObjectList xs)
  | .vmap es => .vmap (isortLe entryKeyLe (sortObjectEntries es))

/-- `sortObject` mapped over array elements (`obj.map(sortObject)`). -/
def sortObjectList : List Value → List Value
  | [] => []
  | x :: xs => sortObject x :: sortObjectList xs

/-- `sortObject` mapped over the values of object entries. -/
def sortObjectEntries : List (String × Value) → List (String × Value)
  | [] => []
  | e :: es => (e.1, sortObject e.2) :: sortObjectEntries es
end

/-- Element comparator of `sortArray`/`sortArraysDeep`: compare the
serialized forms (`JSON.stringify(a).localeCompare(JSON.stringify(b))`). -/
def jstrLe (a b : Value) : Bool := strLe (jstr a) (jstr b)

/-- Embeds `sortArray` (semantic diff module): copy the array, deep-sort
object keys in every element, then sort elements by serialized form. -/
def sortArray (arr : List Value) : List Value :=
  isortLe jstrLe (sortObjectList arr)

/-- Embeds `sortObjectDeep` (textual diff module `diff.ts`); its code is
identical to `sortObject` in the semantic diff module. -/
def sortObjectDeep : Value → Value := sortObject

mutual
/-- Embeds `sortArraysDeep` (`diff.ts`): arrays are recursively processed
and then sorted by the serialized form of their elements; object entry
order is preserved while values are recursively processed. -/
def sortArraysDeep : Value → Value
  | .vnull => .vnull
  | .vbool b => .vbool b
  | .vnum n => .vnum n
  | .vstr s => .vstr s
  | .varr xs => .varr (isortLe jstrLe (sortArraysDeepList xs))
  | .vmap es => .vmap (sortArraysDeepEntries es)

/-- `sortArraysDeep` mapped over array elements. -/
def sortArraysDeepList : List Value → List Value
  | [] => []
  | x :: xs => sortArraysDeep x :: sortArraysDeepList xs

/-- `sortArraysDeep` mapped over the values of object entries. -/
def sortArraysDeepEntries : List (String × Value) → List (String × Value)
  | [] => []
  | e :: es => (e.1, sortArraysDeep e.2) :: sortArraysDeepEntries es
end

mutual
/-- Node count of a value tree; the fuel bound for the comparison
recursion and the induction measure of the symmetry proofs. -/
def vsize : Value → Nat
  | .vnull => 1
  | .vbool _ => 1
  | .vnum _ => 1
  | .vstr _ => 1
  | .varr xs => 1 + lsize xs
  | .vmap es => 1 + esize es

/-- Size of a list of values (one unit per list cell plus element sizes). -/
def lsize : List Value → Nat
  | [] => 0
  | x :: xs => 1 + vsize x + lsize xs

/-- Size of an object entry list. -/
def esize : List (String × Value) → Nat
  | [] => 0
  | e :: es => 1 + vsize e.2 + esize es
end

mutual
/-- Whitespace-run collapsing: a whitespace run becomes a single space
(the `replace(/\s+/g, ' ')` normalization). -/
def collapseRuns : List Char → List Char
  | [] => []
  | c :: cs => if c.isWhitespace then ' ' :: skipWsRun cs else c :: collapseRuns cs

/-- Consumes the rest of a whitespace run inside `collapseRuns`. -/
def skipWsRun : List Char → List Char
  | [] => []
  | c :: cs => if c.isWhitespace then skipWsRun cs else c :: collapseRuns cs
end

/-- The `replace(/\s+/g, ' ')` normalization on a string (no trim), as used
in `normalizeContent` (`diff.ts`). -/
def collapseWs (s : String) : String := String.mk (collapseRuns s.data)

/-- The `trim().replace(/\s+/g, ' ')` normalization, as used in
`normalizeValue` (semantic diff module). -/
def trimCollapseWs (s : String) : String := String.mk (collapseRuns (jsTrim s).data)

/-- String normalization of `normalizeValue`: collapse whitespace if
`ignoreWhitespace`, then lowercase if `ignoreCase`. -/
def normalizeStr (options : DiffOptions) (s : String) : String :=
  let s1 := if options.ignoreWhitespace then trimCollapseWs s else s
  if options.ignoreCase then jsToLower s1 else s1

/-- Embeds `normalizeValue` (semantic diff module): strings are normalized
per options, every other value passes through unchanged. -/
def normalizeValue (value : Value) (options : DiffOptions) : Value :=
  match value with
  | .vstr s => .vstr (normalizeStr options s)
  | v => v

/-- Strict equality as used on the normalized scalars in `compareDeep`
(`normalizedLeft !== normalizedRight`). Only scalar pairs of equal type
ever reach that comparison. -/
def strictEq : Value → Value → Bool
  | .vnull, .vnull => true
  | .vbool a, .vbool b => a == b
  | .vnum a, .vnum b => a == b
  | .vstr a, .vstr b => a == b
  | _, _ => false

/-- Path attribution at a record emission site (`path || '$'`). -/
def pathOrRoot (path : String) : String := if path = "" then "$" else path

/-- Array item paths (`` `${path}[${i}]` ``). -/
def itemPath (path : String) (i : Nat) : String :=
  path ++ "[" ++ toString i ++ "]"

/-- Object key paths (`` path ? `${path}.${key}` : key ``). -/
def keyPath (path k : String) : String := if path = "" then k else path ++ "." ++ k

/-- Key lookup in an object entry list (`key in obj` / `obj[key]`). -/
def lookupKey : List (String × Value) → String → Option Value
  | [], _ => none
  | e :: es, k => if e.1 = k then some e.2 else lookupKey es k

/-- Key list of an object (`Object.keys`). -/
def keysOf (es : List (String × Value)) : List String := es.map Prod.fst

/-- First-occurrence deduplication, modelling JS `Set` insertion order. -/
def dedupAcc (seen : List String) : List String → List String
  | [] => []
  | k :: ks => if k ∈ seen then dedupAcc seen ks else k :: dedupAcc (k :: seen) ks

/-- Embeds `new Set([...Object.keys(leftObj), ...Object.keys(rightObj)])`:
left keys first, then right-only keys, first occurrence kept. -/
def unionKeys (leftObj rightObj : List (String × Value)) : List String :=
  dedupAcc [] (keysOf leftObj ++ keysOf rightObj)

/-- Tail of the array pairing loop once the left side is exhausted: every
remaining right index yields an `added` record. -/
def addedTail (path : String) : List Value → Nat → List SemanticChange
  | [], _ => []
  | y :: ys, i =>
    { path := itemPath path i, type := .added, newValue := some y }
      :: addedTail path ys (i + 1)

/-- The per-index array pairing loop of `compareDeep` (the `for` loop up to
`max(leftArr.length, rightArr.length)`), parameterized by the recursive
comparison `rec` for index pairs present on both sides. -/
def compareArraysGo (rec : Value → Value → String → DiffOptions → List SemanticChange) :
    List Value → List Value → String → Nat → DiffOptions → List SemanticChange
  | [], ys, path, i, _ => addedTail path ys i
  | x :: xs, [], path, i, options =>
    { path := itemPath path i, type := .removed, oldValue := some x }
      :: compareArraysGo rec xs [] path (i + 1) options
  | x :: xs, y :: ys, path, i, options =>
    rec x y (itemPath path i) options
      ++ compareArraysGo rec xs ys path (i + 1) options

/-- The per-key loop of `compareDeep` over the key-set union (the
`for (const key of allKeys)` loop), parameterized by the recursive
comparison `rec` for keys present on both sides. -/
def compareMapKeysGo (rec : Value → Value → String → DiffOptions → List SemanticChange)
    (leftObj rightObj : List (String × Value)) :
    List String → String → DiffOptions → List SemanticChange
  | [], _, _ => []
  | k :: ks, path, options =>
    (match lookupKey leftObj k, lookupKey rightObj k with
     | none, some rv => [{ path := keyPath path k, type := .added, newValue := some rv }]
     | some lv, none => [{ path := keyPath path k, type := .removed, oldValue := some lv }]
     | some lv, some rv => rec lv rv (keyPath path k) options
     | none, none => [])
      ++ compareMapKeysGo rec leftObj rightObj ks path options

/-- Embeds `compareDeep` (semantic diff module), with explicit recursion
fuel (one unit per tree level; `compareDeep` instantiates it with a
sufficient bound). Branch order follows the source: type mismatch, both
null, arrays (optionally sorted copies), objects (key-set union), scalars
(normalized comparison carrying original values). -/
def compareDeepF : Nat → Value → Value → String → DiffOptions → List SemanticChange
  | 0, _, _, _, _ => []
  | fuel + 1, left, right, path, options =>
    if getType left != getType right then
      [{ path := pathOrRoot path, type := .type_changed,
         oldValue := some left, newValue := some right,
         oldType := some (getType left), newType := some (getType right) }]
    else
      match left, right with
      | .vnull, .vnull => []
      | .varr la, .varr ra =>
        compareArraysGo (compareDeepF fuel)
          (if options.ignoreArrayOrder then sortArray la else la)
          (if options.ignoreArrayOrder then sortArray ra else ra)
          path 0 options
      | .vmap le, .vmap re =>
        let leftObj := if options.ignoreKeyOrder then isortLe entryKeyLe (sortObjectEntries le) else le
        let rightObj := if options.ignoreKeyOrder then isortLe entryKeyLe (sortObjectEntries re) else re
        compareMapKeysGo (compareDeepF fuel) leftObj rightObj
          (unionKeys leftObj rightObj) path options
      | l, r =>
        if strictEq (normalizeValue l options) (normalizeValue r options) then []
        else
          [{ path := pathOrRoot path, type := .modified,
             oldValue := some l, newValue := some r }]

/-- `compareDeep` at a fuel bound sufficient for the whole tree
(`vsize left + vsize right` dominates the recursion depth). -/
def compareDeep (left right : Value) (path : String) (options : DiffOptions) :
    List SemanticChange :=
  compareDeepF (vsize left + vsize right) left right path options

/-- The summary tally of `computeSemanticDiff` (filter by record kind). -/
def summarize (changes : List SemanticChange) : Summary :=
  { added := (changes.filter fun c => c.type == .added).length,
    removed := (changes.filter fun c => c.type == .removed).length,
    modified := (changes.filter fun c => c.type == .modified).length,
    typeChanged := (changes.filter fun c => c.type == .type_changed).length,
    total := changes.length }

/-- Embeds `parseContent` (semantic diff module). The external parsers are
black boxes (`JSON.parse`, `yaml.load`) passed as parameters; `.error`
models a thrown parse error, `.ok none` models `undefined` (absent
document). Blank input short-circuits to `undefined` before any parser
runs. -/
def parseContent (jsonParse yamlLoad : String → Except String (Option Value))
    (content : String) (format : FormatType) : Except String (Option Value) :=
  if jsTrim content = "" then .ok none
  else
    let actualFormat :=
      if format = .auto then
        (if strStartsWith (jsTrim content) "\x7b" || strStartsWith (jsTrim content) "[" then
          FormatType.json
        else FormatType.yaml)
      else format
    if actualFormat = .json then jsonParse content else yamlLoad content

/-- The sentinel result of `computeSemanticDiff`'s `catch` block: one
synthetic `modified` record at the root carrying the parse error text. -/
def parseErrorResult (e : String) : SemanticDiffResult :=
  { changes := [{ path := "$", type := .modified,
                  oldValue := some (.vstr ("Parse error: " ++ e)), newValue := none }],
    summary := { added := 0, removed := 0, modified := 1, typeChanged := 0, total := 1 },
    isIdentical := false }

/-- Embeds `computeSemanticDiff` (semantic diff module): parse both sides
(left first — a left parse error wins), handle absent documents, otherwise
run `compareDeep` and tally. -/
def computeSemanticDiff (jsonParse yamlLoad : String → Except String (Option Value))
    (leftContent rightContent : String) (leftFormat rightFormat : FormatType)
    (options : DiffOptions) : SemanticDiffResult :=
  match parseContent jsonParse yamlLoad leftContent leftFormat with
  | .error e => parseErrorResult e
  | .ok left =>
    match parseContent jsonParse yamlLoad rightContent rightFormat with
    | .error e => parseErrorResult e
    | .ok right =>
      match left, right with
      | none, none =>
        { changes := [],
          summary := { added := 0, removed := 0, modified := 0, typeChanged := 0, total := 0 },
          isIdentical := true }
      | none, some r =>
        let changes : List SemanticChange := [{ path := "$", type := .added, newValue := some r }]
        { changes := changes, summary := summarize changes, isIdentical := changes.length == 0 }
      | some l, none =>
        let changes : List SemanticChange := [{ path := "$", type := .removed, oldValue := some l }]
        { changes := changes, summary := summarize changes, isIdentical := changes.length == 0 }
      | some l, some r =>
        let changes := compareDeep l r "" options
        { changes := changes, summary := summarize changes, isIdentical := changes.length == 0 }

/-- Indentation padding for pretty-printed JSON. -/
def pad (n : Nat) : String := String.mk (List.replicate n ' ')

mutual
/-- Pretty serialization at nesting depth `d`, modelling
`JSON.stringify(v, null, 2)` (the canonical textual form of
`normalizeContent`). -/
def stringifyAt : Nat → Value → String
  | _, .vnull => "null"
  | _, .vbool b => if b then "true" else "false"
  | _, .vnum n => toString n
  | _, .vstr s => quoteStr s
  | _, .varr [] => "[]"
  | d, .varr (x :: xs) =>
    "[\n" ++ stringifyItems (d + 1) (x :: xs) ++ "\n" ++ pad (2 * d) ++ "]"
  | _, .vmap [] => "\x7b\x7d"
  | d, .vmap (e :: es) =>
    "\x7b\n" ++ stringifyProps (d + 1) (e :: es) ++ "\n" ++ pad (2 * d) ++ "\x7d"

/-- Array items of the pretty serialization, separated by `,\n`. -/
def stringifyItems (d : Nat) : List Value → String
  | [] => ""
  | [x] => pad (2 * d) ++ stringifyAt d x
  | x :: xs => pad (2 * d) ++ stringifyAt d x ++ ",\n" ++ stringifyItems d xs

/-- Object properties of the pretty serialization (`"key": value`). -/
def stringifyProps (d : Nat) : List (String × Value) → String
  | [] => ""
  | [e] => pad (2 * d) ++ quoteStr e.1 ++ ": " ++ stringifyAt d e.2
  | e :: es => pad (2 * d) ++ quoteStr e.1 ++ ": " ++ stringifyAt d e.2 ++ ",\n" ++ stringifyProps d es
end

/-- Top-level `JSON.stringify(v, null, 2)`. -/
def stringify2 (v : Value) : String := stringifyAt 0 v

/-- The `typeof parsed === 'object' && parsed !== null` guard of
`normalizeContent`: holds exactly for arrays and objects. -/
def isContainerValue : Value → Bool
  | .varr _ => true
  | .vmap _ => true
  | _ => false

/-- The parser dispatch of `normalizeContent` (`diff.ts`): JSON for
declared-JSON or auto-detected-JSON content, YAML otherwise. The external
parsers are black-box parameters; `.error` models a thrown parse error. -/
def pickParse (jsonParse yamlLoad : String → Except String Value)
    (content : String) (format : FormatType) : Except String Value :=
  if format = .json
      || (format = .auto
          && (strStartsWith (jsTrim content) "\x7b" || strStartsWith (jsTrim content) "[")) then
    jsonParse content
  else yamlLoad content

/-- The option-driven value normalization of `normalizeContent`: key
sorting if `ignoreKeyOrder`, then array sorting if `ignoreArrayOrder`,
each guarded by the container check. -/
def normalizeParsed (options : DiffOptions) (parsed : Value) : Value :=
  let parsed1 :=
    if options.ignoreKeyOrder && isContainerValue parsed then sortObjectDeep parsed else parsed
  if options.ignoreArrayOrder && isContainerValue parsed1 then sortArraysDeep parsed1 else parsed1

/-- Embeds `normalizeContent` (`diff.ts`): parse, sort per options,
serialize with indent 2, then whitespace/case normalization; on parse
failure fall back to the raw content with whitespace/case normalization
applied directly. -/
def normalizeContent (jsonParse yamlLoad : String → Except String Value)
    (content : String) (format : FormatType) (options : DiffOptions) : String :=
  match pickParse jsonParse yamlLoad content format with
  | .ok parsed =>
    let normalized := stringify2 (normalizeParsed options parsed)
    let normalized1 := if options.ignoreWhitespace then collapseWs normalized else normalized
    if options.ignoreCase then jsToLower normalized1 else normalized1
  | .error _ =>
    let result := if options.ignoreWhitespace then collapseWs content else content
    if options.ignoreCase then jsToLower result else result

/-- Embeds the `DiffLine` type of `diff.ts` (`type` field values). -/
inductive DiffLineType where
  | unchanged : DiffLineType
  | added : DiffLineType
  | removed : DiffLineType
  | modified : DiffLineType
  deriving Repr, DecidableEq

/-- Embeds the `WordDiff` span type of `diff.ts`. -/
structure WordDiff where
  value : String
  type : DiffLineType
  deriving Repr, DecidableEq

/-- Embeds the `DiffLine` interface of `diff.ts`; the optional `wordDiff`
field becomes an `Option`, `none` modelling absent. -/
structure DiffLine where
  lineNumber : Nat
  content : String
  type : DiffLineType
  wordDiff : Option (List WordDiff) := none
  deriving Repr, DecidableEq

/-- Embeds the change objects returned by the external LCS primitives
(`diff.diffLines` / `diff.diffWords`): a text block flagged added,
removed, or neither (unchanged). -/
structure Hunk where
  value : String
  added : Bool
  removed : Bool
  deriving Repr, DecidableEq

/-- Embeds the `DiffResult` interface of `diff.ts`. -/
structure DiffResult where
  left : List DiffLine
  right : List DiffLine
  hasDifferences : Bool
  addedCount : Nat
  removedCount : Nat
  modifiedCount : Nat
  deriving Repr, DecidableEq

/-- Split on newline characters, modelling JS `value.split('\n')`. -/
def splitNlGo (cur : List Char) : List Char → List String
  | [] => [String.mk cur.reverse]
  | c :: cs =>
    if c = '\n' then String.mk cur.reverse :: splitNlGo [] cs
    else splitNlGo (c :: cur) cs

/-- JS `String.prototype.split('\n')`. -/
def splitNl (s : String) : List String := splitNlGo [] s.data

/-- Last-character test for a trailing newline (`value.endsWith('\n')`). -/
def endsWithNl (s : String) : Bool :=
  match s.data.reverse with
  | [] => false
  | c :: _ => c = '\n'

/-- The hunk line splitting of `computeDiff`: split on `'\n'` and drop the
final empty piece exactly when the hunk text ends with a newline. -/
def splitHunkLines (s : String) : List String :=
  let parts := splitNl s
  if endsWithNl s then parts.dropLast else parts

/-- Consecutive `DiffLine`s of one type, numbered from `startNum + 1`
(the `forEach` push loops of `computeDiff`). -/
def mkLines (t : DiffLineType) (startNum : Nat) : List String → List DiffLine
  | [] => []
  | s :: rest =>
    { lineNumber := startNum + 1, content := s, type := t } :: mkLines t (startNum + 1) rest

/-- Accumulator of the hunk expansion loop of `computeDiff`. -/
structure BuildState where
  leftLines : List DiffLine
  rightLines : List DiffLine
  leftLineNum : Nat
  rightLineNum : Nat
  addedCount : Nat
  removedCount : Nat
  modifiedCount : Nat
  deriving Repr

/-- One step of the hunk expansion loop (`changes.forEach`): added hunks
extend the right side, removed hunks the left side, unchanged hunks both
(with independently incremented line numbers). -/
def processHunk (st : BuildState) (change : Hunk) : BuildState :=
  let lines := splitHunkLines change.value
  if change.added then
    { st with
      rightLines := st.rightLines ++ mkLines .added st.rightLineNum lines,
      rightLineNum := st.rightLineNum + lines.length,
      addedCount := st.addedCount + lines.length }
  else if change.removed then
    { st with
      leftLines := st.leftLines ++ mkLines .removed st.leftLineNum lines,
      leftLineNum := st.leftLineNum + lines.length,
      removedCount := st.removedCount + lines.length }
  else
    { st with
      leftLines := st.leftLines ++ mkLines .unchanged st.leftLineNum lines,
      rightLines := st.rightLines ++ mkLines .unchanged st.rightLineNum lines,
      leftLineNum := st.leftLineNum + lines.length,
      rightLineNum := st.rightLineNum + lines.length }

/-- The full hunk expansion: fold `processHunk` from the empty state. -/
def buildLines (changes : List Hunk) : BuildState :=
  changes.foldl processHunk
    { leftLines := [], rightLines := [], leftLineNum := 0, rightLineNum := 0,
      addedCount := 0, removedCount := 0, modifiedCount := 0 }

/-- Word span construction from the `diff.diffWords` output (the
`wordChanges.forEach` of `computeWordDiff`): removed spans go left, added
spans go right, unchanged spans go to both sides. -/
def buildWordSpans : List Hunk → List WordDiff × List WordDiff
  | [] => ([], [])
  | change :: rest =>
    let (ls, rs) := buildWordSpans rest
    if change.removed then ({ value := change.value, type := .removed } :: ls, rs)
    else if change.added then (ls, { value := change.value, type := .added } :: rs)
    else ({ value := change.value, type := .unchanged } :: ls,
          { value := change.value, type := .unchanged } :: rs)

/-- The pointer walk of `computeWordDiff` (`diff.ts`): two indices advance
over the left/right line arrays in parallel; when the left pointer is at a
`removed` line while the right pointer is at an `added` line, the pair is
treated as a modification, a word-level diff of their contents is attached
to both lines, and both pointers advance; otherwise the pointers skip
forward exactly as in the source (`leftIndex++` past an unpaired removed
line, `rightIndex++` past an unpaired added line, both otherwise). The
fuel argument bounds the iteration count; every loop iteration advances a
pointer that is still in range, so `ll.length + rl.length` iterations
always suffice and `computeWordDiff` instantiates the fuel accordingly. -/
def wordDiffLoop (diffWords : String → String → List Hunk) :
    Nat → List DiffLine → List DiffLine → Nat → Nat → List DiffLine × List DiffLine
  | 0, ll, rl, _, _ => (ll, rl)
  | fuel + 1, ll, rl, li, ri =>
    if li < ll.length ∨ ri < rl.length then
      match ll[li]?, rl[ri]? with
      | some leftLine, some rightLine =>
        if leftLine.type = .removed ∧ rightLine.type = .added then
          let spans := buildWordSpans (diffWords leftLine.content rightLine.content)
          wordDiffLoop diffWords fuel
            (ll.set li { leftLine with wordDiff := some spans.1 })
            (rl.set ri { rightLine with wordDiff := some spans.2 })
            (li + 1) (ri + 1)
        else if leftLine.type = .removed then
          wordDiffLoop diffWords fuel ll rl (li + 1) ri
        else if rightLine.type = .added then
          wordDiffLoop diffWords fuel ll rl li (ri + 1)
        else
          wordDiffLoop diffWords fuel ll rl (li + 1) (ri + 1)
      | some leftLine, none =>
        if leftLine.type = .removed then wordDiffLoop diffWords fuel ll rl (li + 1) ri
        else wordDiffLoop diffWords fuel ll rl (li + 1) (ri + 1)
      | none, some rightLine =>
        if rightLine.type = .added then wordDiffLoop diffWords fuel ll rl li (ri + 1)
        else wordDiffLoop diffWords fuel ll rl li (ri + 1)
      | none, none => (ll, rl)
    else (ll, rl)

/-- Embeds `computeWordDiff` (`diff.ts`): the in-place walk as a function
from the built line arrays to the annotated line arrays. -/
def computeWordDiff (diffWords : String → String → List Hunk)
    (leftLines rightLines : List DiffLine) : List DiffLine × List DiffLine :=
  wordDiffLoop diffWords (leftLines.length + rightLines.length) leftLines rightLines 0 0

/-- Embeds `computeDiff` (`diff.ts`): canonicalize both sides, run the
external line diff, expand hunks to numbered lines, optionally attach word
diffs, and assemble counts (`modifiedCount` is initialized to zero and
never incremented). -/
def computeDiff (jsonParse yamlLoad : String → Except String Value)
    (diffLines diffWords : String → String → List Hunk)
    (leftContent rightContent : String) (leftFormat rightFormat : FormatType)
    (options : DiffOptions) : DiffResult :=
  let normalizedLeft := normalizeContent jsonParse yamlLoad leftContent leftFormat options
  let normalizedRight := normalizeContent jsonParse yamlLoad rightContent rightFormat options
  let changes := diffLines normalizedLeft normalizedRight
  let st := buildLines changes
  let annotated :=
    if options.showWordDiff then computeWordDiff diffWords st.leftLines st.rightLines
    else (st.leftLines, st.rightLines)
  { left := annotated.1,
    right := annotated.2,
    hasDifferences := st.addedCount > 0 || st.removedCount > 0 || st.modifiedCount > 0,
    addedCount := st.addedCount,
    removedCount := st.removedCount,
    modifiedCount := st.modifiedCount }

/-- Adjacent-pairs sortedness under a boolean comparator. -/
def sortedByLe (le : α → α → Bool) : List α → Bool
  | [] => true
  | [_] => true
  | x :: y :: t => le x y && sortedByLe le (y :: t)

/-- Record-kind swap used to state the left/right symmetry of the engine:
`added` and `removed` trade places, `modified` and `type_changed` stay. -/
def swapType : SemanticChangeType → SemanticChangeType
  | .added => .removed
  | .removed => .added
  | .modified => .modified
  | .type_changed => .type_changed

/-- Record swap used to state the left/right symmetry of the engine. -/
def swapChange (c : SemanticChange) : SemanticChange :=
  { path := c.path, type := swapType c.type,
    oldValue := c.newValue, newValue := c.oldValue,
    oldType := c.newType, newType := c.oldType }

mutual
/-- Deep key-sortedness: every object in the tree has its entries in
ascending key order (the invariant produced by `sortObjectDeep`). -/
def keysSortedDeep : Value → Bool
  | .vnull => true
  | .vbool _ => true
  | .vnum _ => true
  | .vstr _ => true
  | .varr xs => keysSortedDeepList xs
  | .vmap es => sortedByLe entryKeyLe es && keysSortedDeepEntries es

/-- `keysSortedDeep` over array elements. -/
def keysSortedDeepList : List Value → Bool
  | [] => true
  | x :: xs => keysSortedDeep x && keysSortedDeepList xs

/-- `keysSortedDeep` over the values of object entries. -/
def keysSortedDeepEntries : List (String × Value) → Bool
  | [] => true
  | e :: es => keysSortedDeep e.2 && keysSortedDeepEntries es
end

/-- Black-box stand-in for a parser that rejects its input (as
`JSON.parse`/`yaml.load` do on malformed text). -/
def failParse : String → Except String Value := fun _ => .error "SyntaxError"

/-- Concrete model of `JSON.parse` on the two inputs of the first
canonicalization counterexample: the literal `\x7b"B":1,"a":2\x7d` and its
lowercased pretty serialization (whose keys come back lowercased). These
are exactly the values the real `JSON.parse` returns on those strings. -/
def c8JsonParse1 : String → Except String Value := fun s =>
  if s = "\x7b\"B\":1,\"a\":2\x7d" then .ok (.vmap [("B", .vnum 1), ("a", .vnum 2)])
  else if s = "\x7b\n  \"b\": 1,\n  \"a\": 2\n\x7d" then
    .ok (.vmap [("b", .vnum 1), ("a", .vnum 2)])
  else .error "SyntaxError"

/-- Concrete model of `JSON.parse` on the inputs of the second
canonicalization counterexample: a string literal containing a raw newline
is rejected (as `JSON.parse` does), while its whitespace-collapsed form
parses to the string `"x y"`. -/
def c8JsonParse2 : String → Except String Value := fun s =>
  if s = " \"x y\"" then .ok (.vstr "x y") else .error "SyntaxError"

/-- Concrete model of `JSON.parse` for the round-trip witness: the compact
object literal and its pretty serialization both parse to the same map. -/
def c8JsonParse3 : String → Except String Value := fun s =>
  if s = "\x7b\"b\":1,\"a\":2\x7d" then .ok (.vmap [("b", .vnum 1), ("a", .vnum 2)])
  else if s = "\x7b\n  \"b\": 1,\n  \"a\": 2\n\x7d" then
    .ok (.vmap [("b", .vnum 1), ("a", .vnum 2)])
  else .error "SyntaxError"

/-- The default diff options of the application store (`diffOptions`
initial value). -/
def defaultDiffOptions : DiffOptions :=
  { ignoreKeyOrder := false, ignoreWhitespace := false, ignoreCase := false,
    ignoreArrayOrder := false, syncScroll := true, showWordDiff := false }

theorem vsize_pos : ∀ v : Value, 1 ≤ vsize v := by
  intro v
  cases v <;> simp [vsize]

/-- Unfolding `compareDeep` exposes one positive-fuel step. -/
theorem compareDeep_eq_succ (l r : Value) (path : String) (o : DiffOptions) :
    compareDeep l r path o = compareDeepF (vsize l + vsize r - 1 + 1) l r path o := by
  have h1 := vsize_pos l
  unfold compareDeep
  congr 1
  omega

/-- With positive fuel, a kind mismatch yields exactly the one
`type_changed` record and nothing else. -/
theorem compareDeepF_succ_type_mismatch (fuel : Nat) (l r : Value) (path : String)
    (o : DiffOptions) (h : getType l ≠ getType r) :
    compareDeepF (fuel + 1) l r path o =
      [{ path := pathOrRoot path, type := .type_changed,
         oldValue := some l, newValue := some r,
         oldType := some (getType l), newType := some (getType r) }] := by
  simp only [compareDeepF, bne_iff_ne, ne_eq]
  rw [if_pos h]

/-- Scalar branch of `compareDeepF` on two strings: normalized comparison,
original values in the record. -/
theorem compareDeepF_succ_vstr (fuel : Nat) (a b : String) (path : String) (o : DiffOptions) :
    compareDeepF (fuel + 1) (.vstr a) (.vstr b) path o =
      if normalizeStr o a = normalizeStr o b then []
      else [{ path := pathOrRoot path, type := .modified,
              oldValue := some (.vstr a), newValue := some (.vstr b) }] := by
  simp only [compareDeepF, bne_iff_ne, ne_eq]
  rw [if_neg (by simp [getType])]
  simp [strictEq, normalizeValue, beq_iff_eq]

/-- Scalar branch of `compareDeepF` on two numbers: raw equality. -/
theorem compareDeepF_succ_vnum (fuel : Nat) (m n : Int) (path : String) (o : DiffOptions) :
    compareDeepF (fuel + 1) (.vnum m) (.vnum n) path o =
      if m = n then []
      else [{ path := pathOrRoot path, type := .modified,
              oldValue := some (.vnum m), newValue := some (.vnum n) }] := by
  simp only [compareDeepF, bne_iff_ne, ne_eq]
  rw [if_neg (by simp [getType])]
  simp [strictEq, normalizeValue, beq_iff_eq]

/-- Scalar branch of `compareDeepF` on two booleans: raw equality. -/
theorem compareDeepF_succ_vbool (fuel : Nat) (x y : Bool) (path : String) (o : DiffOptions) :
    compareDeepF (fuel + 1) (.vbool x) (.vbool y) path o =
      if x = y then []
      else [{ path := pathOrRoot path, type := .modified,
              oldValue := some (.vbool x), newValue := some (.vbool y) }] := by
  simp only [compareDeepF, bne_iff_ne, ne_eq]
  rw [if_neg (by simp [getType])]
  simp [strictEq, normalizeValue, beq_iff_eq]

/-- C3: for every pair of values whose kinds differ, `compareDeep` emits
exactly one `type_changed` record at the current path carrying `oldValue`,
`newValue`, `oldType` and `newType`, and nothing else (no recursion into
the subtree); in particular comparing the string `"5"` against the number
`5` under default options yields exactly one such record at `$` with kinds
`string` and `number`. -/
theorem c3_type_mismatch_single_record :
    (∀ (l r : Value) (path : String) (o : DiffOptions), getType l ≠ getType r →
      compareDeep l r path o =
        [{ path := pathOrRoot path, type := .type_changed,
           oldValue := some l, newValue := some r,
           oldType := some (getType l), newType := some (getType r) }])
    ∧ compareDeep (.vstr "5") (.vnum 5) "" defaultDiffOptions =
        [{ path := "$", type := .type_changed, oldValue := some (.vstr "5"),
           newValue := some (.vnum 5), oldType := some "string", newType := some "number" }] := by
  constructor
  · intro l r path o h
    rw [compareDeep_eq_succ]
    exact compareDeepF_succ_type_mismatch _ _ _ _ _ h
  · rfl

/-- Witness for C3 at a concrete mismatched pair away from the root. -/
theorem c3_type_mismatch_single_record_witness :
    compareDeep (.vbool true) (.vnum 0) "a.b" defaultDiffOptions =
      [{ path := "a.b", type := .type_changed, oldValue := some (.vbool true),
         newValue := some (.vnum 0), oldType := some "boolean", newType := some "number" }] :=
  c3_type_mismatch_single_record.1 _ _ _ _ (by decide)

/-- C4: string leaves are compared on their normalized forms (whitespace
collapse when `ignoreWhitespace`, then lowercasing when `ignoreCase`)
while numbers and booleans are compared by raw equality, and an emitted
`modified` record always carries the original, non-normalized values; the
two concrete conjuncts show a pair equal only after normalization
producing no record, and a differing pair whose record carries the
originals. -/
theorem c4_scalar_comparison :
    (∀ (a b : String) (path : String) (o : DiffOptions),
      compareDeep (.vstr a) (.vstr b) path o =
        if normalizeStr o a = normalizeStr o b then []
        else [{ path := pathOrRoot path, type := .modified,
                oldValue := some (.vstr a), newValue := some (.vstr b) }])
    ∧ (∀ (m n : Int) (path : String) (o : DiffOptions),
      compareDeep (.vnum m) (.vnum n) path o =
        if m = n then []
        else [{ path := pathOrRoot path, type := .modified,
                oldValue := some (.vnum m), newValue := some (.vnum n) }])
    ∧ (∀ (x y : Bool) (path : String) (o : DiffOptions),
      compareDeep (.vbool x) (.vbool y) path o =
        if x = y then []
        else [{ path := pathOrRoot path, type := .modified,
                oldValue := some (.vbool x), newValue := some (.vbool y) }])
    ∧ compareDeep (.vstr " A  b ") (.vstr "a b") ""
        { defaultDiffOptions with ignoreWhitespace := true, ignoreCase := true } = []
    ∧ compareDeep (.vstr "A") (.vstr "a") "" defaultDiffOptions =
        [{ path := "$", type := .modified,
           oldValue := some (.vstr "A"), newValue := some (.vstr "a") }] := by
  refine ⟨?_, ?_, ?_, rfl, rfl⟩
  · intro a b path o
    rw [compareDeep_eq_succ]
    exact compareDeepF_succ_vstr _ _ _ _ _
  · intro m n path o
    rw [compareDeep_eq_succ]
    exact compareDeepF_succ_vnum _ _ _ _ _
  · intro x y path o
    rw [compareDeep_eq_succ]
    exact compareDeepF_succ_vbool _ _ _ _ _

/-- C5: whenever parsing either side fails (left parsed first, so a left
error wins), `computeSemanticDiff` skips the structural comparison and
returns the sentinel result: exactly one `modified` change at the root
whose `oldValue` is the readable message `"Parse error: " ++ e`, with
summary `added 0, removed 0, modified 1, typeChanged 0, total 1` and
`isIdentical` false. -/
theorem c5_parse_failure_sentinel :
    ∀ (jp yp : String → Except String (Option Value)) (lc rc : String)
      (lf rf : FormatType) (o : DiffOptions) (e : String),
      (parseContent jp yp lc lf = .error e →
        computeSemanticDiff jp yp lc rc lf rf o = parseErrorResult e)
      ∧ (∀ lv, parseContent jp yp lc lf = .ok lv → parseContent jp yp rc rf = .error e →
          computeSemanticDiff jp yp lc rc lf rf o = parseErrorResult e)
      ∧ parseErrorResult e =
          { changes := [{ path := "$", type := .modified,
                          oldValue := some (.vstr ("Parse error: " ++ e)), newValue := none }],
            summary := { added := 0, removed := 0, modified := 1, typeChanged := 0, total := 1 },
            isIdentical := false } := by
  intro jp yp lc rc lf rf o e
  refine ⟨?_, ?_, rfl⟩
  · intro h
    unfold computeSemanticDiff
    rw [h]
  · intro lv h1 h2
    unfold computeSemanticDiff
    rw [h1, h2]

/-- Witness for C5: a concrete failing parser on the left side. -/
theorem c5_parse_failure_sentinel_witness :
    computeSemanticDiff (fun _ => .error "Unexpected token") (fun _ => .ok none)
      "\x7bbad" "1" .json .json defaultDiffOptions = parseErrorResult "Unexpected token" :=
  (c5_parse_failure_sentinel (fun _ => .error "Unexpected token") (fun _ => .ok none)
    "\x7bbad" "1" .json .json defaultDiffOptions "Unexpected token").1 (by rfl)

/-- C6: when both inputs are blank (empty or whitespace-only),
`computeSemanticDiff` returns the empty change list with `isIdentical`
true and all-zero summary; when exactly one side is absent and the other
parses, the result is a single root record — `added` carrying the whole
right value when the left is absent, `removed` carrying the whole left
value when the right is absent — with no recursion into the present
value. -/
theorem c6_absent_documents :
    ∀ (jp yp : String → Except String (Option Value)) (lc rc : String)
      (lf rf : FormatType) (o : DiffOptions),
      (jsTrim lc = "" → jsTrim rc = "" →
        computeSemanticDiff jp yp lc rc lf rf o =
          { changes := [],
            summary := { added := 0, removed := 0, modified := 0, typeChanged := 0, total := 0 },
            isIdentical := true })
      ∧ (∀ v, jsTrim lc = "" → parseContent jp yp rc rf = .ok (some v) →
          computeSemanticDiff jp yp lc rc lf rf o =
            { changes := [{ path := "$", type := .added, newValue := some v }],
              summary := { added := 1, removed := 0, modified := 0, typeChanged := 0, total := 1 },
              isIdentical := false })
      ∧ (∀ v, parseContent jp yp lc lf = .ok (some v) → jsTrim rc = "" →
          computeSemanticDiff jp yp lc rc lf rf o =
            { changes := [{ path := "$", type := .removed, oldValue := some v }],
              summary := { added := 0, removed := 1, modified := 0, typeChanged := 0, total := 1 },
              isIdentical := false }) := by
  intro jp yp lc rc lf rf o
  have hblank : ∀ c f, jsTrim c = "" → parseContent jp yp c f = .ok none := by
    intro c f h
    unfold parseContent
    rw [if_pos h]
  refine ⟨?_, ?_, ?_⟩
  · intro h1 h2
    unfold computeSemanticDiff
    rw [hblank lc lf h1, hblank rc rf h2]
  · intro v h1 h2
    unfold computeSemanticDiff
    rw [hblank lc lf h1, h2]
    simp [summarize]
  · intro v h1 h2
    unfold computeSemanticDiff
    rw [hblank rc rf h2, h1]
    simp [summarize]

/-- Witness for C6: blank left input against a parsed object. -/
theorem c6_absent_documents_witness :
    computeSemanticDiff (fun _ => .ok (some (.vmap [("a", .vnum 1)]))) (fun _ => .error "x")
      "  " "\x7b\"a\":1\x7d" .json .json defaultDiffOptions =
      { changes := [{ path := "$", type := .added,
                      newValue := some (.vmap [("a", .vnum 1)]) }],
        summary := { added := 1, removed := 0, modified := 0, typeChanged := 0, total := 1 },
        isIdentical := false } :=
  (c6_absent_documents (fun _ => .ok (some (.vmap [("a", .vnum 1)]))) (fun _ => .error "x")
    "  " "\x7b\"a\":1\x7d" .json .json defaultDiffOptions).2.1
    (.vmap [("a", .vnum 1)]) (by rfl) (by rfl)

theorem charToNat_inj {a b : Char} (h : a.toNat = b.toNat) : a = b :=
  Char.ext (UInt32.toNat.inj h)

theorem strLe_refl (a : String) : strLe a a = true := by
  simp [strLe]

theorem charListLt_trichotomy :
    ∀ l1 l2 : List Char, l1 = l2 ∨ charListLt l1 l2 = true ∨ charListLt l2 l1 = true := by
  intro l1
  induction l1 with
  | nil => intro l2; cases l2 <;> simp [charListLt]
  | cons a as ih =>
    intro l2
    cases l2 with
    | nil => simp [charListLt]
    | cons b bs =>
      rcases Nat.lt_trichotomy a.toNat b.toNat with h | h | h
      · right; left; simp [charListLt, h]
      · have hab : a = b := charToNat_inj h
        subst hab
        rcases ih bs with h2 | h2 | h2
        · left; rw [h2]
        · right; left; simp [charListLt, h2]
        · right; right; simp [charListLt, h2]
      · right; right; simp [charListLt, h]

theorem string_eq_of_data_eq {a b : String} (h : a.data = b.data) : a = b := by
  cases a; cases b; simp_all

theorem strLe_total (a b : String) : strLe a b = true ∨ strLe b a = true := by
  rcases charListLt_trichotomy a.data b.data with h | h | h
  · left
    have : a = b := string_eq_of_data_eq h
    simp [strLe, this]
  · left; simp [strLe, h]
  · right; simp [strLe, h]

theorem charListLt_trans :
    ∀ {l1 l2 l3 : List Char}, charListLt l1 l2 = true → charListLt l2 l3 = true →
      charListLt l1 l3 = true := by
  intro l1
  induction l1 with
  | nil =>
    intro l2 l3 h1 h2
    cases l2 with
    | nil => simp [charListLt] at h1
    | cons b bs =>
      cases l3 with
      | nil => simp [charListLt] at h2
      | cons c cs => simp [charListLt]
  | cons a as ih =>
    intro l2 l3 h1 h2
    cases l2 with
    | nil => simp [charListLt] at h1
    | cons b bs =>
      cases l3 with
      | nil => simp [charListLt] at h2
      | cons c cs =>
        simp only [charListLt, Bool.or_eq_true, Bool.and_eq_true, beq_iff_eq,
          decide_eq_true_eq] at h1 h2 ⊢
        rcases h1 with h1 | ⟨hab, h1⟩
        · rcases h2 with h2 | ⟨hbc, h2⟩
          · exact Or.inl (Nat.lt_trans h1 h2)
          · subst hbc; exact Or.inl h1
        · subst hab
          rcases h2 with h2 | ⟨hbc, h2⟩
          · exact Or.inl h2
          · subst hbc; exact Or.inr ⟨rfl, ih h1 h2⟩

theorem strLe_trans {a b c : String} (h1 : strLe a b = true) (h2 : strLe b c = true) :
    strLe a c = true := by
  simp only [strLe, Bool.or_eq_true, beq_iff_eq] at h1 h2 ⊢
  rcases h1 with h1 | h1
  · subst h1; exact h2
  · rcases h2 with h2 | h2
    · subst h2; exact Or.inr h1
    · exact Or.inr (charListLt_trans h1 h2)

theorem insertLe_perm (le : α → α → Bool) (x : α) (l : List α) :
    List.Perm (insertLe le x l) (x :: l) := by
  induction l with
  | nil => exact List.Perm.refl _
  | cons y ys ih =>
    by_cases h : le x y = true
    · simp [insertLe, h]
    · simp only [insertLe, if_neg h]
      exact (ih.cons y).trans (List.Perm.swap x y ys)

theorem isortLe_perm (le : α → α → Bool) (l : List α) : List.Perm (isortLe le l) l := by
  induction l with
  | nil => exact List.Perm.refl _
  | cons x xs ih =>
    simpa [isortLe] using (insertLe_perm le x (isortLe le xs)).trans (ih.cons x)

theorem sortedByLe_insertLe (le : α → α → Bool)
    (total : ∀ a b, le a b = true ∨ le b a = true) (x : α) :
    ∀ l, sortedByLe le l = true → sortedByLe le (insertLe le x l) = true := by
  intro l
  induction l with
  | nil => intro _; simp [insertLe, sortedByLe]
  | cons y ys ih =>
    intro hs
    by_cases h : le x y = true
    · simp only [insertLe, if_pos h]
      simp only [sortedByLe, Bool.and_eq_true]
      exact ⟨h, hs⟩
    · have hyx : le y x = true := (total x y).resolve_left h
      simp only [insertLe, if_neg h]
      cases ys with
      | nil => simp [sortedByLe, insertLe, hyx]
      | cons z zs =>
        have hyz : le y z = true := by
          simp only [sortedByLe, Bool.and_eq_true] at hs
          exact hs.1
        have hzzs : sortedByLe le (z :: zs) = true := by
          simp only [sortedByLe, Bool.and_eq_true] at hs
          exact hs.2
        by_cases h2 : le x z = true
        · simp only [insertLe, if_pos h2]
          simp only [sortedByLe, Bool.and_eq_true]
          exact ⟨hyx, h2, hzzs⟩
        · simp only [insertLe, if_neg h2]
          have := ih hzzs
          simp only [insertLe, if_neg h2] at this
          simp only [sortedByLe, Bool.and_eq_true] at this ⊢
          exact ⟨hyz, this⟩

theorem isortLe_sorted (le : α → α → Bool)
    (total : ∀ a b, le a b = true ∨ le b a = true) :
    ∀ l, sortedByLe le (isortLe le l) = true := by
  intro l
  induction l with
  | nil => simp [isortLe, sortedByLe]
  | cons x xs ih => exact sortedByLe_insertLe le total x _ ih

theorem isortLe_of_sorted (le : α → α → Bool) :
    ∀ l, sortedByLe le l = true → isortLe le l = l := by
  intro l
  induction l with
  | nil => intro _; rfl
  | cons x xs ih =>
    intro hs
    have hxs : sortedByLe le xs = true := by
      cases xs with
      | nil => rfl
      | cons y ys =>
        simp only [sortedByLe, Bool.and_eq_true] at hs
        exact hs.2
    simp only [isortLe, ih hxs]
    cases xs with
    | nil => rfl
    | cons y ys =>
      have hxy : le x y = true := by
        simp only [sortedByLe, Bool.and_eq_true] at hs
        exact hs.1
      simp [insertLe, hxy]

theorem isortLe_idem (le : α → α → Bool)
    (total : ∀ a b, le a b = true ∨ le b a = true) (l : List α) :
    isortLe le (isortLe le l) = isortLe le l :=
  isortLe_of_sorted le _ (isortLe_sorted le total l)

theorem entryKeyLe_total (a b : String × Value) :
    entryKeyLe a b = true ∨ entryKeyLe b a = true :=
  strLe_total a.1 b.1

theorem jstrLe_total (a b : Value) : jstrLe a b = true ∨ jstrLe b a = true :=
  strLe_total (jstr a) (jstr b)

theorem sortObjectList_fixed :
    ∀ l : List Value, (∀ x ∈ l, sortObject x = x) → sortObjectList l = l := by
  intro l
  induction l with
  | nil => intro _; rfl
  | cons x xs ih =>
    intro h
    simp only [sortObjectList]
    rw [h x (by simp), ih fun y hy => h y (by simp [hy])]

theorem sortObjectEntries_fixed :
    ∀ l : List (String × Value), (∀ e ∈ l, sortObject e.2 = e.2) → sortObjectEntries l = l := by
  intro l
  induction l with
  | nil => intro _; rfl
  | cons e es ih =>
    intro h
    simp only [sortObjectEntries]
    rw [h e (by simp), ih fun f hf => h f (by simp [hf])]

mutual
theorem sortObject_idem : ∀ v : Value, sortObject (sortObject v) = sortObject v
  | .vnull => rfl
  | .vbool _ => rfl
  | .vnum _ => rfl
  | .vstr _ => rfl
  | .varr xs => by
    simp only [sortObject]
    rw [sortObjectList_fixed _ (sortObjectList_fix xs)]
  | .vmap es => by
    simp only [sortObject]
    rw [sortObjectEntries_fixed _ fun e he =>
      sortObjectEntries_fix es e (((isortLe_perm entryKeyLe _).mem_iff).mp he)]
    rw [isortLe_idem entryKeyLe entryKeyLe_total]

theorem sortObjectList_fix : ∀ xs : List Value, ∀ x ∈ sortObjectList xs, sortObject x = x
  | [] => by intro y hy; simp [sortObjectList] at hy
  | x :: xs => by
    intro y hy
    rcases List.mem_cons.mp hy with h | h
    · subst h; exact sortObject_idem x
    · exact sortObjectList_fix xs y h

theorem sortObjectEntries_fix :
    ∀ es : List (String × Value), ∀ e ∈ sortObjectEntries es, sortObject e.2 = e.2
  | [] => by intro f hf; simp [sortObjectEntries] at hf
  | e :: es => by
    intro f hf
    rcases List.mem_cons.mp hf with h | h
    · subst h; exact sortObject_idem e.2
    · exact sortObjectEntries_fix es f h
end

/-- `sortArray` is idempotent: sorting an already element-canonicalized,
serialized-form-sorted array changes nothing. -/
theorem sortArray_idem (l : List Value) : sortArray (sortArray l) = sortArray l := by
  unfold sortArray
  rw [sortObjectList_fixed _ fun x hx =>
    sortObjectList_fix l x (((isortLe_perm jstrLe _).mem_iff).mp hx)]
  exact isortLe_idem jstrLe jstrLe_total _

theorem lsize_perm {l1 l2 : List Value} (h : List.Perm l1 l2) : lsize l1 = lsize l2 := by
  induction h with
  | nil => rfl
  | cons x _ ih => simp only [lsize]; omega
  | swap x y l => simp only [lsize]; omega
  | trans _ _ ih1 ih2 => omega

theorem esize_perm {l1 l2 : List (String × Value)} (h : List.Perm l1 l2) :
    esize l1 = esize l2 := by
  induction h with
  | nil => rfl
  | cons x _ ih => simp only [esize]; omega
  | swap x y l => simp only [esize]; omega
  | trans _ _ ih1 ih2 => omega

mutual
theorem vsize_sortObject : ∀ v : Value, vsize (sortObject v) = vsize v
  | .vnull => rfl
  | .vbool _ => rfl
  | .vnum _ => rfl
  | .vstr _ => rfl
  | .varr xs => by
    simp only [sortObject, vsize]
    rw [lsize_sortObjectList xs]
  | .vmap es => by
    simp only [sortObject, vsize]
    rw [esize_perm (isortLe_perm entryKeyLe _), esize_sortObjectEntries es]

theorem lsize_sortObjectList : ∀ xs : List Value, lsize (sortObjectList xs) = lsize xs
  | [] => rfl
  | x :: xs => by
    simp only [sortObjectList, lsize]
    rw [vsize_sortObject x, lsize_sortObjectList xs]

theorem esize_sortObjectEntries :
    ∀ es : List (String × Value), esize (sortObjectEntries es) = esize es
  | [] => rfl
  | e :: es => by
    simp only [sortObjectEntries, esize]
    rw [vsize_sortObject e.2, esize_sortObjectEntries es]
end

theorem lsize_sortArray (l : List Value) : lsize (sortArray l) = lsize l := by
  unfold sortArray
  rw [lsize_perm (isortLe_perm jstrLe _), lsize_sortObjectList l]

/-- Array branch of `compareDeepF` with positive fuel. -/
theorem compareDeepF_succ_varr (fuel : Nat) (la ra : List Value) (path : String)
    (o : DiffOptions) :
    compareDeepF (fuel + 1) (.varr la) (.varr ra) path o =
      compareArraysGo (compareDeepF fuel)
        (if o.ignoreArrayOrder then sortArray la else la)
        (if o.ignoreArrayOrder then sortArray ra else ra) path 0 o := by
  simp [compareDeepF, getType]

/-- Object branch of `compareDeepF` with positive fuel. -/
theorem compareDeepF_succ_vmap (fuel : Nat) (le re : List (String × Value)) (path : String)
    (o : DiffOptions) :
    compareDeepF (fuel + 1) (.vmap le) (.vmap re) path o =
      compareMapKeysGo (compareDeepF fuel)
        (if o.ignoreKeyOrder then isortLe entryKeyLe (sortObjectEntries le) else le)
        (if o.ignoreKeyOrder then isortLe entryKeyLe (sortObjectEntries re) else re)
        (unionKeys
          (if o.ignoreKeyOrder then isortLe entryKeyLe (sortObjectEntries le) else le)
          (if o.ignoreKeyOrder then isortLe entryKeyLe (sortObjectEntries re) else re))
        path o := by
  simp [compareDeepF, getType]

theorem compareArraysGo_self (rec : Value → Value → String → DiffOptions → List SemanticChange)
    (o : DiffOptions) :
    ∀ (xs : List Value) (path : String) (i : Nat),
      (∀ x ∈ xs, ∀ p, rec x x p o = []) → compareArraysGo rec xs xs path i o = [] := by
  intro xs
  induction xs with
  | nil => intro path i _; rfl
  | cons x xs ih =>
    intro path i h
    simp only [compareArraysGo]
    rw [h x (by simp) _, ih path (i + 1) fun y hy p => h y (by simp [hy]) p]
    rfl

theorem compareMapKeysGo_self (rec : Value → Value → String → DiffOptions → List SemanticChange)
    (o : DiffOptions) (le : List (String × Value)) :
    ∀ (keys : List String) (path : String),
      (∀ k lv, lookupKey le k = some lv → rec lv lv (keyPath path k) o = []) →
      compareMapKeysGo rec le le keys path o = [] := by
  intro keys
  induction keys with
  | nil => intro path _; rfl
  | cons k ks ih =>
    intro path h
    simp only [compareMapKeysGo]
    rw [ih path h]
    cases hl : lookupKey le k with
    | none => simp
    | some lv => simp [h k lv hl]

/-- Identity: comparing any value with itself yields no change records,
for every fuel, path and option set. -/
theorem compareDeepF_self :
    ∀ (fuel : Nat) (v : Value) (path : String) (o : DiffOptions),
      compareDeepF fuel v v path o = [] := by
  intro fuel
  induction fuel with
  | zero => intro v path o; rfl
  | succ n ih =>
    intro v path o
    cases v with
    | vnull => simp [compareDeepF, getType]
    | vbool b =>
      rw [compareDeepF_succ_vbool]
      simp
    | vnum m =>
      rw [compareDeepF_succ_vnum]
      simp
    | vstr s =>
      rw [compareDeepF_succ_vstr]
      simp
    | varr xs =>
      rw [compareDeepF_succ_varr]
      exact compareArraysGo_self _ o _ path 0 fun x _ p => ih x p o
    | vmap es =>
      rw [compareDeepF_succ_vmap]
      exact compareMapKeysGo_self _ o _ _ path fun k lv _ => ih lv _ o

theorem compareMapKeysGo_eq_lookups
    (rec : Value → Value → String → DiffOptions → List SemanticChange) (o : DiffOptions)
    (le re : List (String × Value)) (h : ∀ k, lookupKey le k = lookupKey re k) :
    ∀ (keys : List String) (path : String),
      (∀ k lv, lookupKey le k = some lv → rec lv lv (keyPath path k) o = []) →
      compareMapKeysGo rec le re keys path o = [] := by
  intro keys
  induction keys with
  | nil => intro path _; rfl
  | cons k ks ih =>
    intro path hrec
    simp only [compareMapKeysGo]
    rw [ih path hrec]
    have hr := (h k).symm
    cases hl : lookupKey le k with
    | none => rw [hl] at hr; rw [hr]; simp
    | some lv => rw [hl] at hr; rw [hr]; simp [hrec k lv hl]

theorem lookupKey_insertLe (e : String × Value) (l : List (String × Value)) (k : String) :
    lookupKey (insertLe entryKeyLe e l) k =
      if e.1 = k then some e.2 else lookupKey l k := by
  induction l with
  | nil => rfl
  | cons y ys ih =>
    by_cases hle : entryKeyLe e y = true
    · simp only [insertLe, if_pos hle]
      rfl
    · simp only [insertLe, if_neg hle, lookupKey, ih]
      by_cases h1 : e.1 = k
      · by_cases h2 : y.1 = k
        · exfalso
          apply hle
          have : e.1 = y.1 := h1.trans h2.symm
          simp only [entryKeyLe, this]
          exact strLe_refl y.1
        · simp [h1, h2]
      · simp [h1]

theorem lookupKey_isortKeys (l : List (String × Value)) (k : String) :
    lookupKey (isortLe entryKeyLe l) k = lookupKey l k := by
  induction l with
  | nil => rfl
  | cons e es ih =>
    simp only [isortLe, lookupKey_insertLe, ih]
    rfl

theorem lookupKey_sortObjectEntries (es : List (String × Value)) (k : String) :
    lookupKey (sortObjectEntries es) k = Option.map sortObject (lookupKey es k) := by
  induction es with
  | nil => rfl
  | cons e es ih =>
    simp only [sortObjectEntries, lookupKey, ih]
    by_cases h : e.1 = k <;> simp [h]

/-- C2: map comparison is key-set based regardless of `ignoreKeyOrder`:
whenever two maps agree on every key lookup, `compareDeep` reports no
changes under every option set (in particular for either value of the
flag); concretely, reordering the entries of a two-key map is never
reported as a change, whatever the options. -/
theorem c2_map_key_set_comparison :
    (∀ (le re : List (String × Value)) (path : String) (o : DiffOptions),
      (∀ k, lookupKey le k = lookupKey re k) →
      compareDeep (.vmap le) (.vmap re) path o = [])
    ∧ (∀ b1 b2 b3 b4 b5 b6 : Bool,
      compareDeep (.vmap [("a", .vnum 1), ("b", .vnum 2)])
        (.vmap [("b", .vnum 2), ("a", .vnum 1)]) ""
        ⟨b1, b2, b3, b4, b5, b6⟩ = []) := by
  constructor
  · intro le re path o h
    rw [compareDeep_eq_succ, compareDeepF_succ_vmap]
    by_cases hko : o.ignoreKeyOrder = true
    · simp only [hko, if_pos]
      apply compareMapKeysGo_eq_lookups
      · intro k
        rw [lookupKey_isortKeys, lookupKey_isortKeys,
          lookupKey_sortObjectEntries, lookupKey_sortObjectEntries, h k]
      · intro k lv _
        exact compareDeepF_self _ lv _ o
    · simp only [Bool.not_eq_true] at hko
      simp only [hko, Bool.false_eq_true, if_neg, ite_false]
      apply compareMapKeysGo_eq_lookups _ _ _ _ h
      intro k lv _
      exact compareDeepF_self _ lv _ o
  · intro b1 b2 b3 b4 b5 b6
    cases b1 <;> cases b2 <;> cases b3 <;> cases b4 <;> cases b5 <;> cases b6 <;> rfl

/-- Witness for C2 at concrete reordered maps with swapped entry order. -/
theorem c2_map_key_set_comparison_witness :
    compareDeep (.vmap [("x", .vnull), ("y", .vbool true)])
      (.vmap [("y", .vbool true), ("x", .vnull)]) "" defaultDiffOptions = [] :=
  c2_map_key_set_comparison.1 _ _ "" defaultDiffOptions (by
    intro k
    by_cases h1 : "x" = k <;> by_cases h2 : "y" = k <;>
      simp [lookupKey, h1, h2]
    exact absurd (h1.trans h2.symm) (by decide))

/-- C1: with `ignoreArrayOrder` set, each side's array is independently
replaced by its canonicalized sorted copy before index pairing (so
pre-sorting either side changes nothing, and `[1,2,3]` vs `[3,2,1]`
produces no records); with the flag clear, elements are paired by index up
to the longer length — right-only indexes produce `added` records at
`path[i]`, left-only indexes produce `removed` records, and shared indexes
recurse — so `[1,2,3]` vs `[3,2,1]` yields `modified` records exactly at
`[0]` and `[2]` and none at `[1]`. -/
theorem c1_array_comparison :
    (∀ (la ra : List Value) (path : String) (o : DiffOptions), o.ignoreArrayOrder = true →
      compareDeep (.varr (sortArray la)) (.varr (sortArray ra)) path o =
        compareDeep (.varr la) (.varr ra) path o)
    ∧ compareDeep (.varr [.vnum 1, .vnum 2, .vnum 3]) (.varr [.vnum 3, .vnum 2, .vnum 1]) ""
        { defaultDiffOptions with ignoreArrayOrder := true } = []
    ∧ compareDeep (.varr [.vnum 1, .vnum 2, .vnum 3]) (.varr [.vnum 3, .vnum 2, .vnum 1]) ""
        defaultDiffOptions =
      [{ path := "[0]", type := .modified, oldValue := some (.vnum 1), newValue := some (.vnum 3) },
       { path := "[2]", type := .modified, oldValue := some (.vnum 3), newValue := some (.vnum 1) }]
    ∧ compareDeep (.varr [.vnum 1]) (.varr [.vnum 1, .vnum 2, .vnum 3]) "" defaultDiffOptions =
      [{ path := "[1]", type := .added, newValue := some (.vnum 2) },
       { path := "[2]", type := .added, newValue := some (.vnum 3) }]
    ∧ compareDeep (.varr [.vnum 1, .vnum 2, .vnum 3]) (.varr [.vnum 1]) "" defaultDiffOptions =
      [{ path := "[1]", type := .removed, oldValue := some (.vnum 2) },
       { path := "[2]", type := .removed, oldValue := some (.vnum 3) }] := by
  refine ⟨?_, rfl, rfl, rfl, rfl⟩
  intro la ra path o h
  have fuelEq : vsize (Value.varr (sortArray la)) + vsize (Value.varr (sortArray ra)) =
      vsize (Value.varr la) + vsize (Value.varr ra) := by
    simp [vsize, lsize_sortArray]
  unfold compareDeep
  rw [fuelEq]
  obtain ⟨n, hn⟩ : ∃ n, vsize (Value.varr la) + vsize (Value.varr ra) = n + 1 := by
    refine ⟨vsize (Value.varr la) + vsize (Value.varr ra) - 1, ?_⟩
    have := vsize_pos (Value.varr la)
    omega
  rw [hn, compareDeepF_succ_varr, compareDeepF_succ_varr]
  simp [h, sortArray_idem]

/-- Witness for C1: pre-sorting both sides of a concrete comparison under
`ignoreArrayOrder` leaves the result unchanged. -/
theorem c1_array_comparison_witness :
    compareDeep (.varr (sortArray [.vnum 2, .vnum 1])) (.varr (sortArray [.vnum 1])) ""
      { defaultDiffOptions with ignoreArrayOrder := true } =
      compareDeep (.varr [.vnum 2, .vnum 1]) (.varr [.vnum 1]) ""
        { defaultDiffOptions with ignoreArrayOrder := true } :=
  c1_array_comparison.1 [.vnum 2, .vnum 1] [.vnum 1] ""
    { defaultDiffOptions with ignoreArrayOrder := true } rfl

theorem list_set_self {α : Type} : ∀ (l : List α) (i : Nat) (v : α),
    l[i]? = some v → l.set i v = l := by
  intro l
  induction l with
  | nil => intro i v h; simp at h
  | cons x xs ih =>
    intro i v h
    cases i with
    | zero =>
      simp only [List.getElem?_cons_zero, Option.some.injEq] at h
      simp [List.set, h]
    | succ n =>
      simp only [List.getElem?_cons_succ] at h
      simp [List.set, ih n v h]

theorem map_type_set_wordDiff (ll : List DiffLine) (li : Nat) (lln : DiffLine)
    (w : Option (List WordDiff)) (hL : ll[li]? = some lln) :
    (ll.set li { lln with wordDiff := w }).map DiffLine.type = ll.map DiffLine.type := by
  rw [List.map_set]
  exact list_set_self _ _ _ (by rw [List.getElem?_map, hL]; rfl)

theorem wordDiffLoop_map_type (dw : String → String → List Hunk) :
    ∀ (fuel : Nat) (ll rl : List DiffLine) (li ri : Nat),
      (wordDiffLoop dw fuel ll rl li ri).1.map DiffLine.type = ll.map DiffLine.type
      ∧ (wordDiffLoop dw fuel ll rl li ri).2.map DiffLine.type = rl.map DiffLine.type := by
  intro fuel
  induction fuel with
  | zero => intros; exact ⟨rfl, rfl⟩
  | succ n ih =>
    intro ll rl li ri
    rw [wordDiffLoop]
    split
    · cases hL : ll[li]? <;> cases hR : rl[ri]? <;> dsimp only
      · exact ⟨rfl, rfl⟩
      · split
        · exact ih ll rl li (ri + 1)
        · exact ih ll rl li (ri + 1)
      · split
        · exact ih ll rl (li + 1) ri
        · exact ih ll rl (li + 1) (ri + 1)
      · split
        · constructor
          · rw [(ih _ _ _ _).1]
            exact map_type_set_wordDiff ll li _ _ hL
          · rw [(ih _ _ _ _).2]
            exact map_type_set_wordDiff rl ri _ _ hR
        · split
          · exact ih ll rl (li + 1) ri
          · split
            · exact ih ll rl li (ri + 1)
            · exact ih ll rl (li + 1) (ri + 1)
    · exact ⟨rfl, rfl⟩

theorem countP_type_eq_of_map_type_eq (l1 l2 : List DiffLine) (t : DiffLineType)
    (h : l1.map DiffLine.type = l2.map DiffLine.type) :
    l1.countP (fun dl => dl.type == t) = l2.countP (fun dl => dl.type == t) := by
  have key : ∀ l : List DiffLine,
      l.countP (fun dl => dl.type == t) =
        (l.map DiffLine.type).countP (fun ty => ty == t) := by
    intro l
    rw [List.countP_map]
    rfl
  rw [key, key, h]

theorem countP_mkLines (t t' : DiffLineType) :
    ∀ (ls : List String) (n : Nat),
      (mkLines t n ls).countP (fun dl => dl.type == t') =
        if t = t' then ls.length else 0 := by
  intro ls
  induction ls with
  | nil => intro n; simp [mkLines]
  | cons s ss ih =>
    intro n
    simp only [mkLines, List.countP_cons, ih]
    by_cases h : t = t' <;> simp [h]

theorem processHunk_inv (st : BuildState) (h : Hunk)
    (hP : st.addedCount = st.rightLines.countP (fun dl => dl.type == .added)
      ∧ st.removedCount = st.leftLines.countP (fun dl => dl.type == .removed)
      ∧ st.modifiedCount = 0) :
    (processHunk st h).addedCount =
        (processHunk st h).rightLines.countP (fun dl => dl.type == .added)
      ∧ (processHunk st h).removedCount =
        (processHunk st h).leftLines.countP (fun dl => dl.type == .removed)
      ∧ (processHunk st h).modifiedCount = 0 := by
  obtain ⟨h1, h2, h3⟩ := hP
  unfold processHunk
  by_cases ha : h.added = true
  · simp only [ha, if_pos]
    refine ⟨?_, by simpa using h2, h3⟩
    rw [List.countP_append, countP_mkLines]
    simp [h1]
  · simp only [Bool.not_eq_true] at ha
    simp only [ha, Bool.false_eq_true, if_neg, ite_false]
    by_cases hr : h.removed = true
    · simp only [hr, if_pos]
      refine ⟨by simpa using h1, ?_, h3⟩
      rw [List.countP_append, countP_mkLines]
      simp [h2]
    · simp only [Bool.not_eq_true] at hr
      simp only [hr, Bool.false_eq_true, if_neg, ite_false]
      refine ⟨?_, ?_, h3⟩
      · rw [List.countP_append, countP_mkLines]
        simp [h1]
      · rw [List.countP_append, countP_mkLines]
        simp [h2]

theorem foldl_processHunk_inv :
    ∀ (hunks : List Hunk) (st : BuildState),
      (st.addedCount = st.rightLines.countP (fun dl => dl.type == .added)
        ∧ st.removedCount = st.leftLines.countP (fun dl => dl.type == .removed)
        ∧ st.modifiedCount = 0) →
      ((hunks.foldl processHunk st).addedCount =
          (hunks.foldl processHunk st).rightLines.countP (fun dl => dl.type == .added)
        ∧ (hunks.foldl processHunk st).removedCount =
          (hunks.foldl processHunk st).leftLines.countP (fun dl => dl.type == .removed)
        ∧ (hunks.foldl processHunk st).modifiedCount = 0) := by
  intro hunks
  induction hunks with
  | nil => intro st hP; exact hP
  | cons h hs ih =>
    intro st hP
    simp only [List.foldl_cons]
    exact ih _ (processHunk_inv st h hP)

theorem buildLines_inv (hunks : List Hunk) :
    (buildLines hunks).addedCount =
        (buildLines hunks).rightLines.countP (fun dl => dl.type == .added)
      ∧ (buildLines hunks).removedCount =
        (buildLines hunks).leftLines.countP (fun dl => dl.type == .removed)
      ∧ (buildLines hunks).modifiedCount = 0 :=
  foldl_processHunk_inv hunks _ ⟨rfl, rfl, rfl⟩

/-- C10: for every input, `computeDiff` returns `modifiedCount` zero (the
field is declared but never incremented), `addedCount` equal to the number
of `added` lines in the returned right array, `removedCount` equal to the
number of `removed` lines in the returned left array, and
`hasDifferences` true exactly when `addedCount` or `removedCount` is
positive. -/
theorem c10_computeDiff_invariants :
    ∀ (jp yp : String → Except String Value) (dl dw : String → String → List Hunk)
      (lc rc : String) (lf rf : FormatType) (o : DiffOptions),
      (computeDiff jp yp dl dw lc rc lf rf o).modifiedCount = 0
      ∧ (computeDiff jp yp dl dw lc rc lf rf o).addedCount =
          (computeDiff jp yp dl dw lc rc lf rf o).right.countP (fun ln => ln.type == .added)
      ∧ (computeDiff jp yp dl dw lc rc lf rf o).removedCount =
          (computeDiff jp yp dl dw lc rc lf rf o).left.countP (fun ln => ln.type == .removed)
      ∧ ((computeDiff jp yp dl dw lc rc lf rf o).hasDifferences = true ↔
          0 < (computeDiff jp yp dl dw lc rc lf rf o).addedCount
          ∨ 0 < (computeDiff jp yp dl dw lc rc lf rf o).removedCount) := by
  intro jp yp dl dw lc rc lf rf o
  obtain ⟨hA, hR, hM⟩ :=
    buildLines_inv (dl (normalizeContent jp yp lc lf o) (normalizeContent jp yp rc rf o))
  by_cases hw : o.showWordDiff = true
  · simp only [computeDiff, hw, if_pos, computeWordDiff]
    refine ⟨hM, ?_, ?_, ?_⟩
    · rw [hA]
      exact (countP_type_eq_of_map_type_eq _ _ _
        ((wordDiffLoop_map_type dw _ _ _ 0 0).2)).symm
    · rw [hR]
      exact (countP_type_eq_of_map_type_eq _ _ _
        ((wordDiffLoop_map_type dw _ _ _ 0 0).1)).symm
    · simp only [hM, Bool.or_eq_true, decide_eq_true_eq]
      omega
  · simp only [Bool.not_eq_true] at hw
    simp only [computeDiff, hw, Bool.false_eq_true, if_neg, ite_false]
    refine ⟨hM, hA, hR, ?_⟩
    simp only [hM, Bool.or_eq_true, decide_eq_true_eq]
    omega

theorem wordDiffLoop_left_untouched (dw : String → String → List Hunk) :
    ∀ (fuel : Nat) (ll rl : List DiffLine) (li ri : Nat) (j : Nat) (lln : DiffLine),
      ll[j]? = some lln → lln.type ≠ .removed →
      ((wordDiffLoop dw fuel ll rl li ri).1)[j]? = some lln := by
  intro fuel
  induction fuel with
  | zero => intro ll rl li ri j lln hj _; exact hj
  | succ n ih =>
    intro ll rl li ri j lln hj ht
    rw [wordDiffLoop]
    split
    · cases hL : ll[li]? <;> cases hR : rl[ri]? <;> dsimp only
      · exact hj
      · split
        · exact ih ll rl li (ri + 1) j lln hj ht
        · exact ih ll rl li (ri + 1) j lln hj ht
      · split
        · exact ih ll rl (li + 1) ri j lln hj ht
        · exact ih ll rl (li + 1) (ri + 1) j lln hj ht
      · rename_i lln0 rln0
        split
        · rename_i hpair
          by_cases hij : li = j
          · subst hij
            rw [hj] at hL
            exact absurd (congrArg DiffLine.type (Option.some.inj hL)).symm
              (by rw [hpair.1]; exact fun hh => ht hh.symm)
          · refine ih _ _ (li + 1) (ri + 1) j lln ?_ ht
            rw [List.getElem?_set_ne hij]
            exact hj
        · split
          · exact ih ll rl (li + 1) ri j lln hj ht
          · split
            · exact ih ll rl li (ri + 1) j lln hj ht
            · exact ih ll rl (li + 1) (ri + 1) j lln hj ht
    · exact hj

theorem wordDiffLoop_right_untouched (dw : String → String → List Hunk) :
    ∀ (fuel : Nat) (ll rl : List DiffLine) (li ri : Nat) (j : Nat) (rln : DiffLine),
      rl[j]? = some rln → rln.type ≠ .added →
      ((wordDiffLoop dw fuel ll rl li ri).2)[j]? = some rln := by
  intro fuel
  induction fuel with
  | zero => intro ll rl li ri j rln hj _; exact hj
  | succ n ih =>
    intro ll rl li ri j rln hj ht
    rw [wordDiffLoop]
    split
    · cases hL : ll[li]? <;> cases hR : rl[ri]? <;> dsimp only
      · exact hj
      · split
        · exact ih ll rl li (ri + 1) j rln hj ht
        · exact ih ll rl li (ri + 1) j rln hj ht
      · split
        · exact ih ll rl (li + 1) ri j rln hj ht
        · exact ih ll rl (li + 1) (ri + 1) j rln hj ht
      · rename_i lln0 rln0
        split
        · rename_i hpair
          by_cases hij : ri = j
          · subst hij
            rw [hj] at hR
            exact absurd (congrArg DiffLine.type (Option.some.inj hR)).symm
              (by rw [hpair.2]; exact fun hh => ht hh.symm)
          · refine ih _ _ (li + 1) (ri + 1) j rln ?_ ht
            rw [List.getElem?_set_ne hij]
            exact hj
        · split
          · exact ih ll rl (li + 1) ri j rln hj ht
          · split
            · exact ih ll rl li (ri + 1) j rln hj ht
            · exact ih ll rl (li + 1) (ri + 1) j rln hj ht
    · exact hj

/-- C9 counterexample: the walk does not pair every `removed` line with
the next available `added` line. Diffing `"b\nc\n"` against `"c\nx\n"`
(raw-text fallback; the external line diff reports `removed b`,
`unchanged c`, `added x`, as jsdiff does) leaves the removed line `b` with
a null span list even though the added line `x` exists later on the
right: when the walk visits `b`, the right side is at the unchanged line
`c`, so `b` is skipped unpaired. -/
theorem c9_word_diff_pairing_counterexample :
    ((computeDiff (fun _ => .error "SyntaxError") (fun _ => .error "SyntaxError")
        (fun a b =>
          if a = "b\nc\n" && b = "c\nx\n" then
            [{ value := "b\n", added := false, removed := true },
             { value := "c\n", added := false, removed := false },
             { value := "x\n", added := true, removed := false }]
          else [])
        (fun _ _ => [])
        "b\nc\n" "c\nx\n" .json .json
        { defaultDiffOptions with showWordDiff := true }).left)[0]? =
      some { lineNumber := 1, content := "b", type := .removed, wordDiff := none }
    ∧ ((computeDiff (fun _ => .error "SyntaxError") (fun _ => .error "SyntaxError")
        (fun a b =>
          if a = "b\nc\n" && b = "c\nx\n" then
            [{ value := "b\n", added := false, removed := true },
             { value := "c\n", added := false, removed := false },
             { value := "x\n", added := true, removed := false }]
          else [])
        (fun _ _ => [])
        "b\nc\n" "c\nx\n" .json .json
        { defaultDiffOptions with showWordDiff := true }).right)[1]? =
      some { lineNumber := 2, content := "x", type := .added, wordDiff := none } :=
  ⟨rfl, rfl⟩

/-- C9 (amended): with `showWordDiff` set, the walk pairs a `removed` left
line with an `added` right line only when the parallel walk reaches both
at the same time; such a pair gets a word-level diff attached as non-null
span lists on both lines, while every left line that is not `removed` and
every right line that is not `added` — in particular every `unchanged`
line — comes out of the walk entirely untouched (so its span list stays
null); the concrete `"a\nb\nc"` vs `"a\nx\nc"` scenario shows the
simultaneous removed/added pair receiving non-null spans on both sides
and the unchanged lines keeping null. -/
theorem c9_word_diff_attachment :
    (∀ (dw : String → String → List Hunk) (fuel : Nat) (ll rl : List DiffLine)
      (li ri j : Nat) (lln : DiffLine),
      ll[j]? = some lln → lln.type ≠ .removed →
      ((wordDiffLoop dw fuel ll rl li ri).1)[j]? = some lln)
    ∧ (∀ (dw : String → String → List Hunk) (fuel : Nat) (ll rl : List DiffLine)
      (li ri j : Nat) (rln : DiffLine),
      rl[j]? = some rln → rln.type ≠ .added →
      ((wordDiffLoop dw fuel ll rl li ri).2)[j]? = some rln)
    ∧ (computeDiff (fun _ => .error "SyntaxError") (fun _ => .error "SyntaxError")
        (fun a b =>
          if a = "a\nb\nc" && b = "a\nx\nc" then
            [{ value := "a\n", added := false, removed := false },
             { value := "b\n", added := false, removed := true },
             { value := "x\n", added := true, removed := false },
             { value := "c", added := false, removed := false }]
          else [])
        (fun a b =>
          if a = "b" && b = "x" then
            [{ value := "b", added := false, removed := true },
             { value := "x", added := true, removed := false }]
          else [])
        "a\nb\nc" "a\nx\nc" .json .json
        { defaultDiffOptions with showWordDiff := true }).left =
        [{ lineNumber := 1, content := "a", type := .unchanged },
         { lineNumber := 2, content := "b", type := .removed,
           wordDiff := some [{ value := "b", type := .removed }] },
         { lineNumber := 3, content := "c", type := .unchanged }]
    ∧ (computeDiff (fun _ => .error "SyntaxError") (fun _ => .error "SyntaxError")
        (fun a b =>
          if a = "a\nb\nc" && b = "a\nx\nc" then
            [{ value := "a\n", added := false, removed := false },
             { value := "b\n", added := false, removed := true },
             { value := "x\n", added := true, removed := false },
             { value := "c", added := false, removed := false }]
          else [])
        (fun a b =>
          if a = "b" && b = "x" then
            [{ value := "b", added := false, removed := true },
             { value := "x", added := true, removed := false }]
          else [])
        "a\nb\nc" "a\nx\nc" .json .json
        { defaultDiffOptions with showWordDiff := true }).right =
        [{ lineNumber := 1, content := "a", type := .unchanged },
         { lineNumber := 2, content := "x", type := .added,
           wordDiff := some [{ value := "x", type := .added }] },
         { lineNumber := 3, content := "c", type := .unchanged }] :=
  ⟨fun dw fuel ll rl li ri j lln => wordDiffLoop_left_untouched dw fuel ll rl li ri j lln,
   fun dw fuel ll rl li ri j rln => wordDiffLoop_right_untouched dw fuel ll rl li ri j rln,
   rfl, rfl⟩

/-- Witness for C9 (amended): an unchanged line positioned in front of the
walk comes out untouched. -/
theorem c9_word_diff_attachment_witness :
    ((wordDiffLoop (fun _ _ => []) 2
        [{ lineNumber := 1, content := "q", type := .unchanged }]
        [{ lineNumber := 1, content := "q", type := .unchanged }] 0 0).1)[0]? =
      some { lineNumber := 1, content := "q", type := .unchanged } :=
  c9_word_diff_attachment.1 (fun _ _ => []) 2
    [{ lineNumber := 1, content := "q", type := .unchanged }]
    [{ lineNumber := 1, content := "q", type := .unchanged }] 0 0 0
    { lineNumber := 1, content := "q", type := .unchanged } rfl (by decide)

theorem sortArraysDeepList_fixed :
    ∀ l : List Value, (∀ x ∈ l, sortArraysDeep x = x) → sortArraysDeepList l = l := by
  intro l
  induction l with
  | nil => intro _; rfl
  | cons x xs ih =>
    intro h
    simp only [sortArraysDeepList]
    rw [h x (by simp), ih fun y hy => h y (by simp [hy])]

theorem sortArraysDeepEntries_fixed :
    ∀ l : List (String × Value), (∀ e ∈ l, sortArraysDeep e.2 = e.2) →
      sortArraysDeepEntries l = l := by
  intro l
  induction l with
  | nil => intro _; rfl
  | cons e es ih =>
    intro h
    simp only [sortArraysDeepEntries]
    rw [h e (by simp), ih fun f hf => h f (by simp [hf])]

mutual
theorem sortArraysDeep_idem : ∀ v : Value, sortArraysDeep (sortArraysDeep v) = sortArraysDeep v
  | .vnull => rfl
  | .vbool _ => rfl
  | .vnum _ => rfl
  | .vstr _ => rfl
  | .varr xs => by
    simp only [sortArraysDeep]
    rw [sortArraysDeepList_fixed _ fun x hx =>
      sortArraysDeepList_fix xs x (((isortLe_perm jstrLe _).mem_iff).mp hx)]
    rw [isortLe_idem jstrLe jstrLe_total]
  | .vmap es => by
    simp only [sortArraysDeep]
    rw [sortArraysDeepEntries_fixed _ (sortArraysDeepEntries_fix es)]

theorem sortArraysDeepList_fix :
    ∀ xs : List Value, ∀ x ∈ sortArraysDeepList xs, sortArraysDeep x = x
  | [] => by intro y hy; simp [sortArraysDeepList] at hy
  | x :: xs => by
    intro y hy
    rcases List.mem_cons.mp hy with h | h
    · subst h; exact sortArraysDeep_idem x
    · exact sortArraysDeepList_fix xs y h

theorem sortArraysDeepEntries_fix :
    ∀ es : List (String × Value), ∀ e ∈ sortArraysDeepEntries es, sortArraysDeep e.2 = e.2
  | [] => by intro f hf; simp [sortArraysDeepEntries] at hf
  | e :: es => by
    intro f hf
    rcases List.mem_cons.mp hf with h | h
    · subst h; exact sortArraysDeep_idem e.2
    · exact sortArraysDeepEntries_fix es f h
end

theorem keysSortedDeepList_iff (xs : List Value) :
    keysSortedDeepList xs = true ↔ ∀ x ∈ xs, keysSortedDeep x = true := by
  induction xs with
  | nil => simp [keysSortedDeepList]
  | cons x xs ih =>
    simp only [keysSortedDeepList, Bool.and_eq_true, ih]
    constructor
    · rintro ⟨h1, h2⟩ y hy
      rcases List.mem_cons.mp hy with h | h
      · subst h; exact h1
      · exact h2 y h
    · intro h
      exact ⟨h x (by simp), fun y hy => h y (by simp [hy])⟩

theorem keysSortedDeepEntries_iff (es : List (String × Value)) :
    keysSortedDeepEntries es = true ↔ ∀ e ∈ es, keysSortedDeep e.2 = true := by
  induction es with
  | nil => simp [keysSortedDeepEntries]
  | cons e es ih =>
    simp only [keysSortedDeepEntries, Bool.and_eq_true, ih]
    constructor
    · rintro ⟨h1, h2⟩ f hf
      rcases List.mem_cons.mp hf with h | h
      · subst h; exact h1
      · exact h2 f h
    · intro h
      exact ⟨h e (by simp), fun f hf => h f (by simp [hf])⟩

mutual
theorem keysSorted_sortObject : ∀ v : Value, keysSortedDeep (sortObject v) = true
  | .vnull => rfl
  | .vbool _ => rfl
  | .vnum _ => rfl
  | .vstr _ => rfl
  | .varr xs => by
    simp only [sortObject, keysSortedDeep]
    exact (keysSortedDeepList_iff _).mpr (keysSorted_sortObjectList xs)
  | .vmap es => by
    simp only [sortObject, keysSortedDeep, Bool.and_eq_true]
    refine ⟨isortLe_sorted entryKeyLe entryKeyLe_total _, ?_⟩
    exact (keysSortedDeepEntries_iff _).mpr fun e he =>
      keysSorted_sortObjectEntries es e (((isortLe_perm entryKeyLe _).mem_iff).mp he)

theorem keysSorted_sortObjectList :
    ∀ xs : List Value, ∀ x ∈ sortObjectList xs, keysSortedDeep x = true
  | [] => by intro y hy; simp [sortObjectList] at hy
  | x :: xs => by
    intro y hy
    rcases List.mem_cons.mp hy with h | h
    · subst h; exact keysSorted_sortObject x
    · exact keysSorted_sortObjectList xs y h

theorem keysSorted_sortObjectEntries :
    ∀ es : List (String × Value), ∀ e ∈ sortObjectEntries es, keysSortedDeep e.2 = true
  | [] => by intro f hf; simp [sortObjectEntries] at hf
  | e :: es => by
    intro f hf
    rcases List.mem_cons.mp hf with h | h
    · subst h; exact keysSorted_sortObject e.2
    · exact keysSorted_sortObjectEntries es f h
end

mutual
theorem sortObject_of_keysSorted : ∀ v : Value, keysSortedDeep v = true → sortObject v = v
  | .vnull => fun _ => rfl
  | .vbool _ => fun _ => rfl
  | .vnum _ => fun _ => rfl
  | .vstr _ => fun _ => rfl
  | .varr xs => by
    intro h
    simp only [keysSortedDeep] at h
    simp only [sortObject]
    rw [sortObjectList_of_keysSorted xs h]
  | .vmap es => by
    intro h
    simp only [keysSortedDeep, Bool.and_eq_true] at h
    simp only [sortObject]
    rw [sortObjectEntries_of_keysSorted es h.2, isortLe_of_sorted entryKeyLe es h.1]

theorem sortObjectList_of_keysSorted :
    ∀ xs : List Value, keysSortedDeepList xs = true → sortObjectList xs = xs
  | [] => fun _ => rfl
  | x :: xs => by
    intro h
    simp only [keysSortedDeepList, Bool.and_eq_true] at h
    simp only [sortObjectList]
    rw [sortObject_of_keysSorted x h.1, sortObjectList_of_keysSorted xs h.2]

theorem sortObjectEntries_of_keysSorted :
    ∀ es : List (String × Value), keysSortedDeepEntries es = true → sortObjectEntries es = es
  | [] => fun _ => rfl
  | e :: es => by
    intro h
    simp only [keysSortedDeepEntries, Bool.and_eq_true] at h
    simp only [sortObjectEntries]
    rw [sortObject_of_keysSorted e.2 h.1, sortObjectEntries_of_keysSorted es h.2]
end

theorem sortedByLe_sortArraysDeepEntries :
    ∀ es : List (String × Value),
      sortedByLe entryKeyLe (sortArraysDeepEntries es) = sortedByLe entryKeyLe es := by
  intro es
  induction es with
  | nil => rfl
  | cons e es ih =>
    cases es with
    | nil => rfl
    | cons f fs =>
      simp only [sortArraysDeepEntries, sortedByLe] at ih ⊢
      rw [ih]
      rfl

mutual
theorem keysSorted_sortArraysDeep :
    ∀ v : Value, keysSortedDeep v = true → keysSortedDeep (sortArraysDeep v) = true
  | .vnull => fun _ => rfl
  | .vbool _ => fun _ => rfl
  | .vnum _ => fun _ => rfl
  | .vstr _ => fun _ => rfl
  | .varr xs => by
    intro h
    simp only [keysSortedDeep] at h
    simp only [sortArraysDeep, keysSortedDeep]
    exact (keysSortedDeepList_iff _).mpr fun x hx =>
      keysSorted_sortArraysDeepList xs h x (((isortLe_perm jstrLe _).mem_iff).mp hx)
  | .vmap es => by
    intro h
    simp only [keysSortedDeep, Bool.and_eq_true] at h
    simp only [sortArraysDeep, keysSortedDeep, Bool.and_eq_true]
    refine ⟨by rw [sortedByLe_sortArraysDeepEntries]; exact h.1, ?_⟩
    exact (keysSortedDeepEntries_iff _).mpr (keysSorted_sortArraysDeepEntries es h.2)

theorem keysSorted_sortArraysDeepList :
    ∀ xs : List Value, keysSortedDeepList xs = true →
      ∀ x ∈ sortArraysDeepList xs, keysSortedDeep x = true
  | [] => by intro _ y hy; simp [sortArraysDeepList] at hy
  | x :: xs => by
    intro h y hy
    simp only [keysSortedDeepList, Bool.and_eq_true] at h
    rcases List.mem_cons.mp hy with h2 | h2
    · subst h2; exact keysSorted_sortArraysDeep x h.1
    · exact keysSorted_sortArraysDeepList xs h.2 y h2

theorem keysSorted_sortArraysDeepEntries :
    ∀ es : List (String × Value), keysSortedDeepEntries es = true →
      ∀ e ∈ sortArraysDeepEntries es, keysSortedDeep e.2 = true
  | [] => by intro _ f hf; simp [sortArraysDeepEntries] at hf
  | e :: es => by
    intro h f hf
    simp only [keysSortedDeepEntries, Bool.and_eq_true] at h
    rcases List.mem_cons.mp hf with h2 | h2
    · subst h2; exact keysSorted_sortArraysDeep e.2 h.1
    · exact keysSorted_sortArraysDeepEntries es h.2 f h2
end

theorem isContainer_sortObject (v : Value) :
    isContainerValue (sortObject v) = isContainerValue v := by
  cases v <;> rfl

theorem isContainer_sortArraysDeep (v : Value) :
    isContainerValue (sortArraysDeep v) = isContainerValue v := by
  cases v <;> rfl

/-- The option-driven sorting of `normalizeContent` is idempotent. -/
theorem normalizeParsed_idem (o : DiffOptions) (v : Value) :
    normalizeParsed o (normalizeParsed o v) = normalizeParsed o v := by
  unfold normalizeParsed sortObjectDeep
  by_cases hc : isContainerValue v = true
  · by_cases hk : o.ignoreKeyOrder = true
    · by_cases ha : o.ignoreArrayOrder = true
      · simp [hk, ha, hc, isContainer_sortObject, isContainer_sortArraysDeep,
          sortObject_of_keysSorted _ (keysSorted_sortArraysDeep _ (keysSorted_sortObject v)),
          sortArraysDeep_idem]
      · simp only [Bool.not_eq_true] at ha
        simp [hk, ha, hc, isContainer_sortObject, sortObject_idem]
    · simp only [Bool.not_eq_true] at hk
      by_cases ha : o.ignoreArrayOrder = true
      · simp [hk, ha, hc, isContainer_sortArraysDeep, sortArraysDeep_idem]
      · simp only [Bool.not_eq_true] at ha
        simp [hk, ha]
  · simp only [Bool.not_eq_true] at hc
    simp [hc]

/-- C8 counterexample: `normalizeContent` is not round-trip stable for
every option set. With `ignoreKeyOrder` and `ignoreCase`, lowercasing the
serialized text changes the keys, so re-canonicalizing re-sorts them
(`\x7b"B":1,"a":2\x7d` becomes `b` before `a` after lowercasing, and a
second pass reorders to `a` before `b`). With `ignoreWhitespace`, a
parse-failed input whose collapsed form parses (a string literal with a
raw newline) changes again on the second pass. -/
theorem c8_roundtrip_counterexample :
    normalizeContent c8JsonParse1 failParse
        (normalizeContent c8JsonParse1 failParse "\x7b\"B\":1,\"a\":2\x7d" .json
          { defaultDiffOptions with ignoreKeyOrder := true, ignoreCase := true }) .json
        { defaultDiffOptions with ignoreKeyOrder := true, ignoreCase := true }
      ≠ normalizeContent c8JsonParse1 failParse "\x7b\"B\":1,\"a\":2\x7d" .json
          { defaultDiffOptions with ignoreKeyOrder := true, ignoreCase := true }
    ∧ normalizeContent c8JsonParse2 failParse
        (normalizeContent c8JsonParse2 failParse "   \"x\ny\"" .json
          { defaultDiffOptions with ignoreWhitespace := true }) .json
        { defaultDiffOptions with ignoreWhitespace := true }
      ≠ normalizeContent c8JsonParse2 failParse "   \"x\ny\"" .json
          { defaultDiffOptions with ignoreWhitespace := true } := by
  constructor <;> decide

/-- C8 (amended): canonicalization is round-trip stable when
`ignoreWhitespace` and `ignoreCase` are off, provided the external parser
round-trips the canonical serialization (re-parsing `normalizeContent`'s
output yields the value that was serialized): on parse failure the
fallback is the identity, and on success the second pass re-serializes the
idempotently sorted value. -/
theorem c8_canonicalization_roundtrip :
    ∀ (jp yp : String → Except String Value) (content : String) (fmt : FormatType)
      (o : DiffOptions),
      o.ignoreWhitespace = false → o.ignoreCase = false →
      (∀ v, pickParse jp yp content fmt = .ok v →
        pickParse jp yp (normalizeContent jp yp content fmt o) fmt =
          .ok (normalizeParsed o v)) →
      normalizeContent jp yp (normalizeContent jp yp content fmt o) fmt o =
        normalizeContent jp yp content fmt o := by
  intro jp yp content fmt o hws hic hrt
  cases hp : pickParse jp yp content fmt with
  | error e =>
    have h1 : normalizeContent jp yp content fmt o = content := by
      unfold normalizeContent
      rw [hp]
      simp [hws, hic]
    rw [h1]
    exact h1
  | ok v =>
    have h1 : normalizeContent jp yp content fmt o = stringify2 (normalizeParsed o v) := by
      unfold normalizeContent
      rw [hp]
      simp [hws, hic]
    have h2 := hrt v hp
    rw [h1] at h2 ⊢
    unfold normalizeContent
    rw [h2]
    simp [hws, hic, normalizeParsed_idem]

/-- Witness for C8 (amended): with sorting flags off and a parser that
round-trips the pretty serialization, canonicalizing twice equals
canonicalizing once. -/
theorem c8_canonicalization_roundtrip_witness :
    normalizeContent c8JsonParse3 failParse
        (normalizeContent c8JsonParse3 failParse "\x7b\"b\":1,\"a\":2\x7d" .json
          defaultDiffOptions) .json defaultDiffOptions
      = normalizeContent c8JsonParse3 failParse "\x7b\"b\":1,\"a\":2\x7d" .json
          defaultDiffOptions :=
  c8_canonicalization_roundtrip c8JsonParse3 failParse "\x7b\"b\":1,\"a\":2\x7d" .json
    defaultDiffOptions rfl rfl (by
      intro v hv
      have h : (Except.ok (.vmap [("b", .vnum 1), ("a", .vnum 2)]) : Except String Value) =
          .ok v := hv
      cases h
      rfl)

theorem mem_dedupAcc : ∀ (ks seen : List String) (k : String),
    k ∈ dedupAcc seen ks ↔ (k ∈ ks ∧ k ∉ seen) := by
  intro ks
  induction ks with
  | nil => intro seen k; simp [dedupAcc]
  | cons k0 ks ih =>
    intro seen k
    by_cases h0 : k0 ∈ seen
    · simp only [dedupAcc, if_pos h0, ih]
      constructor
      · rintro ⟨h1, h2⟩
        exact ⟨by simp [h1], h2⟩
      · rintro ⟨h1, h2⟩
        rcases List.mem_cons.mp h1 with h3 | h3
        · subst h3; exact absurd h0 h2
        · exact ⟨h3, h2⟩
    · simp only [dedupAcc, if_neg h0, List.mem_cons, ih]
      constructor
      · rintro (h1 | ⟨h1, h2⟩)
        · subst h1; exact ⟨Or.inl rfl, h0⟩
        · refine ⟨Or.inr h1, fun hk => h2 (by simp [hk])⟩
      · rintro ⟨h1 | h1, h2⟩
        · exact Or.inl h1
        · by_cases hk : k = k0
          · exact Or.inl hk
          · exact Or.inr ⟨h1, by simp [hk, h2]⟩

theorem nodup_dedupAcc : ∀ (ks seen : List String), (dedupAcc seen ks).Nodup := by
  intro ks
  induction ks with
  | nil => intro seen; exact List.nodup_nil
  | cons k0 ks ih =>
    intro seen
    by_cases h0 : k0 ∈ seen
    · simpa [dedupAcc, if_pos h0] using ih seen
    · simp only [dedupAcc, if_neg h0]
      refine List.Nodup.cons ?_ (ih (k0 :: seen))
      intro hmem
      exact ((mem_dedupAcc ks (k0 :: seen) k0).mp hmem).2 (by simp)

theorem mem_unionKeys (A B : List (String × Value)) (k : String) :
    k ∈ unionKeys A B ↔ k ∈ keysOf A ∨ k ∈ keysOf B := by
  unfold unionKeys
  rw [mem_dedupAcc]
  simp

theorem unionKeys_comm_perm (A B : List (String × Value)) :
    List.Perm (unionKeys A B) (unionKeys B A) := by
  refine (List.perm_ext_iff_of_nodup (nodup_dedupAcc _ _) (nodup_dedupAcc _ _)).mpr ?_
  intro k
  rw [mem_dedupAcc, mem_dedupAcc]
  simp [List.mem_append, or_comm]

theorem compareArraysGo_nil_right_eq
    (rec : Value → Value → String → DiffOptions → List SemanticChange) (o : DiffOptions)
    (path : String) :
    ∀ (ys : List Value) (i : Nat),
      compareArraysGo rec ys [] path i o = (addedTail path ys i).map swapChange := by
  intro ys
  induction ys with
  | nil => intro i; rfl
  | cons y ys ih =>
    intro i
    simp only [compareArraysGo, addedTail, List.map_cons, ih]
    rfl

theorem map_swapChange_involutive (l : List SemanticChange) :
    (l.map swapChange).map swapChange = l := by
  rw [List.map_map]
  have h : swapChange ∘ swapChange = id := by
    funext c
    cases c with
    | mk p t ov nv ot nt => cases t <;> rfl
  rw [h, List.map_id]

theorem compareArraysGo_swap
    (rec1 rec2 : Value → Value → String → DiffOptions → List SemanticChange) (o : DiffOptions)
    (hrec : ∀ x y p, List.Perm (rec2 y x p o) ((rec1 x y p o).map swapChange)) :
    ∀ (xs ys : List Value) (path : String) (i : Nat),
      List.Perm (compareArraysGo rec2 ys xs path i o)
        ((compareArraysGo rec1 xs ys path i o).map swapChange) := by
  intro xs
  induction xs with
  | nil =>
    intro ys path i
    rw [show compareArraysGo rec1 [] ys path i o = addedTail path ys i from rfl,
      ← compareArraysGo_nil_right_eq rec2 o path ys i]
  | cons x xs ih =>
    intro ys path i
    cases ys with
    | nil =>
      refine List.Perm.of_eq ?_
      rw [compareArraysGo_nil_right_eq rec1 o path (x :: xs) i, map_swapChange_involutive]
      rfl
    | cons y ys =>
      simp only [compareArraysGo, List.map_append]
      exact List.Perm.append (hrec x y _) (ih ys path (i + 1))

theorem compareMapKeysGo_perm_keys
    (rec : Value → Value → String → DiffOptions → List SemanticChange) (o : DiffOptions)
    (le re : List (String × Value)) (path : String) :
    ∀ {k1 k2 : List String}, List.Perm k1 k2 →
      List.Perm (compareMapKeysGo rec le re k1 path o) (compareMapKeysGo rec le re k2 path o) := by
  intro k1 k2 hperm
  induction hperm with
  | nil => exact List.Perm.refl _
  | cons x _ ih =>
    simp only [compareMapKeysGo]
    exact List.Perm.append_left _ ih
  | swap x y l =>
    simp only [compareMapKeysGo]
    rw [← List.append_assoc, ← List.append_assoc]
    exact List.Perm.append_right _ (List.perm_append_comm)
  | trans _ _ ih1 ih2 => exact ih1.trans ih2

theorem compareMapKeysGo_swap
    (rec1 rec2 : Value → Value → String → DiffOptions → List SemanticChange) (o : DiffOptions)
    (hrec : ∀ x y p, List.Perm (rec2 y x p o) ((rec1 x y p o).map swapChange)) :
    ∀ (keys : List String) (le re : List (String × Value)) (path : String),
      List.Perm (compareMapKeysGo rec2 re le keys path o)
        ((compareMapKeysGo rec1 le re keys path o).map swapChange) := by
  intro keys
  induction keys with
  | nil => intro le re path; exact List.Perm.refl _
  | cons k ks ih =>
    intro le re path
    simp only [compareMapKeysGo, List.map_append]
    refine List.Perm.append ?_ (ih le re path)
    cases hA : lookupKey le k <;> cases hB : lookupKey re k <;> dsimp only
    · exact List.Perm.refl _
    · exact List.Perm.of_eq (by simp [swapChange, swapType])
    · exact List.Perm.of_eq (by simp [swapChange, swapType])
    · exact hrec _ _ _

/-- Swapping the two sides of `compareDeepF` permutes the change list into
the field-swapped records (`added` and `removed` trade places, `modified`
and `type_changed` keep their kind with old/new values exchanged). -/
theorem compareDeepF_swap :
    ∀ (fuel : Nat) (l r : Value) (path : String) (o : DiffOptions),
      List.Perm (compareDeepF fuel r l path o) ((compareDeepF fuel l r path o).map swapChange) := by
  intro fuel
  induction fuel with
  | zero => intro l r path o; exact List.Perm.refl _
  | succ n ih =>
    intro l r path o
    by_cases hty : getType l = getType r
    case neg =>
      rw [compareDeepF_succ_type_mismatch n l r path o hty,
        compareDeepF_succ_type_mismatch n r l path o fun h => hty h.symm]
      exact List.Perm.of_eq (by simp [swapChange, swapType])
    case pos =>
      cases l <;> cases r <;> simp only [getType] at hty <;> (try (simp at hty))
      · exact List.Perm.refl _
      · rename_i a b
        rw [compareDeepF_succ_vbool, compareDeepF_succ_vbool]
        by_cases hab : a = b
        · subst hab
          simp
        · rw [if_neg hab, if_neg fun h => hab h.symm]
          exact List.Perm.of_eq (by simp [swapChange, swapType])
      · rename_i a b
        rw [compareDeepF_succ_vnum, compareDeepF_succ_vnum]
        by_cases hab : a = b
        · subst hab
          simp
        · rw [if_neg hab, if_neg fun h => hab h.symm]
          exact List.Perm.of_eq (by simp [swapChange, swapType])
      · rename_i a b
        rw [compareDeepF_succ_vstr, compareDeepF_succ_vstr]
        by_cases hab : normalizeStr o a = normalizeStr o b
        · rw [if_pos hab, if_pos hab.symm]
          simp
        · rw [if_neg hab, if_neg fun h => hab h.symm]
          exact List.Perm.of_eq (by simp [swapChange, swapType])
      · rename_i la ra
        rw [compareDeepF_succ_varr, compareDeepF_succ_varr]
        exact compareArraysGo_swap _ _ o (fun x y p => ih x y p o) _ _ path 0
      · rename_i le re
        rw [compareDeepF_succ_vmap, compareDeepF_succ_vmap]
        exact (compareMapKeysGo_perm_keys _ o _ _ path (unionKeys_comm_perm _ _)).trans
          (compareMapKeysGo_swap _ _ o (fun x y p => ih x y p o) _ _ _ path)

/-- C7: swapping the two sides of the comparison swaps the `added` and
`removed` tallies and preserves the `modified` and `typeChanged` tallies,
for every pair of values, path and option set. -/
theorem c7_summary_count_symmetry :
    ∀ (a b : Value) (path : String) (o : DiffOptions),
      (summarize (compareDeep a b path o)).added = (summarize (compareDeep b a path o)).removed
      ∧ (summarize (compareDeep a b path o)).removed = (summarize (compareDeep b a path o)).added
      ∧ (summarize (compareDeep a b path o)).modified =
          (summarize (compareDeep b a path o)).modified
      ∧ (summarize (compareDeep a b path o)).typeChanged =
          (summarize (compareDeep b a path o)).typeChanged := by
  intro a b path o
  have hperm : List.Perm (compareDeep b a path o) ((compareDeep a b path o).map swapChange) := by
    unfold compareDeep
    rw [Nat.add_comm (vsize b) (vsize a)]
    exact compareDeepF_swap _ a b path o
  have hcount : ∀ (t t' : SemanticChangeType), (∀ ty, (swapType ty == t) = (ty == t')) →
      ((compareDeep b a path o).filter fun c => c.type == t).length =
        ((compareDeep a b path o).filter fun c => c.type == t').length := by
    intro t t' h
    rw [← List.countP_eq_length_filter, ← List.countP_eq_length_filter, hperm.countP_eq,
      List.countP_map]
    have hfun : ((fun c : SemanticChange => c.type == t) ∘ swapChange) =
        fun c : SemanticChange => c.type == t' := funext fun c => h c.type
    rw [hfun]
  exact ⟨(hcount .removed .added fun ty => by cases ty <;> rfl).symm,
    (hcount .added .removed fun ty => by cases ty <;> rfl).symm,
    (hcount .modified .modified fun ty => by cases ty <;> rfl).symm,
    (hcount .type_changed .type_changed fun ty => by cases ty <;> rfl).symm⟩

theorem vsize_le_of_mem : ∀ (xs : List Value) (x : Value), x ∈ xs → vsize x ≤ lsize xs := by
  intro xs
  induction xs with
  | nil => intro x hx; simp at hx
  | cons y ys ih =>
    intro x hx
    rcases List.mem_cons.mp hx with h | h
    · subst h; simp only [lsize]; omega
    · have := ih x h; simp only [lsize]; omega

theorem vsize_le_of_lookup :
    ∀ (es : List (String × Value)) (k : String) (v : Value),
      lookupKey es k = some v → vsize v ≤ esize es := by
  intro es
  induction es with
  | nil => intro k v h; simp [lookupKey] at h
  | cons e es ih =>
    intro k v h
    simp only [lookupKey] at h
    by_cases hk : e.1 = k
    · rw [if_pos hk] at h
      cases h
      simp only [esize]
      omega
    · rw [if_neg hk] at h
      have := ih k v h
      simp only [esize]
      omega

theorem compareArraysGo_congr
    (rec1 rec2 : Value → Value → String → DiffOptions → List SemanticChange) (o : DiffOptions) :
    ∀ (xs ys : List Value) (path : String) (i : Nat),
      (∀ x ∈ xs, ∀ y ∈ ys, ∀ p, rec1 x y p o = rec2 x y p o) →
      compareArraysGo rec1 xs ys path i o = compareArraysGo rec2 xs ys path i o := by
  intro xs
  induction xs with
  | nil => intro ys path i _; rfl
  | cons x xs ih =>
    intro ys path i h
    cases ys with
    | nil =>
      simp only [compareArraysGo]
      rw [ih [] path (i + 1) fun a ha b hb => h a (by simp [ha]) b hb]
    | cons y ys =>
      simp only [compareArraysGo]
      rw [h x (by simp) y (by simp) _,
        ih ys path (i + 1) fun a ha b hb p => h a (by simp [ha]) b (by simp [hb]) p]

theorem compareMapKeysGo_congr
    (rec1 rec2 : Value → Value → String → DiffOptions → List SemanticChange) (o : DiffOptions)
    (le re : List (String × Value)) :
    ∀ (keys : List String) (path : String),
      (∀ k lv rv, lookupKey le k = some lv → lookupKey re k = some rv →
        ∀ p, rec1 lv rv p o = rec2 lv rv p o) →
      compareMapKeysGo rec1 le re keys path o = compareMapKeysGo rec2 le re keys path o := by
  intro keys
  induction keys with
  | nil => intro path _; rfl
  | cons k ks ih =>
    intro path h
    simp only [compareMapKeysGo]
    rw [ih path h]
    cases hA : lookupKey le k <;> cases hB : lookupKey re k <;> dsimp only
    all_goals
      first
        | rfl
        | rw [h _ _ _ hA hB]

/-- Fuel irrelevance: any fuel at least `vsize l + vsize r` makes
`compareDeepF` agree with `compareDeep`, so the fuel cut-off of the
embedding is never reached and `compareDeep` computes the source
recursion. -/
theorem compareDeepF_eq_compareDeep :
    ∀ (fuel : Nat) (l r : Value) (path : String) (o : DiffOptions),
      vsize l + vsize r ≤ fuel → compareDeepF fuel l r path o = compareDeep l r path o := by
  intro fuel
  induction fuel using Nat.strong_induction_on with
  | _ fuel ih =>
    intro l r path o hb
    obtain ⟨n, rfl⟩ : ∃ n, fuel = n + 1 := by
      refine ⟨fuel - 1, ?_⟩
      have := vsize_pos l
      omega
    rw [compareDeep_eq_succ]
    by_cases hty : getType l = getType r
    case neg =>
      rw [compareDeepF_succ_type_mismatch n l r path o hty,
        compareDeepF_succ_type_mismatch _ l r path o hty]
    case pos =>
      cases l <;> cases r <;> simp only [getType] at hty <;> try (simp at hty)
      · rfl
      · rfl
      · rfl
      · rfl
      · rename_i la ra
        rw [compareDeepF_succ_varr, compareDeepF_succ_varr]
        have hbsz : 2 + lsize la + lsize ra ≤ n + 1 := by
          have e1 : vsize (Value.varr la) = 1 + lsize la := by simp [vsize]
          have e2 : vsize (Value.varr ra) = 1 + lsize ra := by simp [vsize]
          omega
        apply compareArraysGo_congr
        intro x hx y hy p
        have hx' : vsize x ≤ lsize la := by
          by_cases hf : o.ignoreArrayOrder = true
          · rw [hf] at hx
            simp only [if_pos] at hx
            exact le_trans (vsize_le_of_mem _ _ hx) (le_of_eq (lsize_sortArray la))
          · simp only [Bool.not_eq_true] at hf
            rw [hf] at hx
            simp only [Bool.false_eq_true, if_neg, ite_false] at hx
            exact vsize_le_of_mem _ _ hx
        have hy' : vsize y ≤ lsize ra := by
          by_cases hf : o.ignoreArrayOrder = true
          · rw [hf] at hy
            simp only [if_pos] at hy
            exact le_trans (vsize_le_of_mem _ _ hy) (le_of_eq (lsize_sortArray ra))
          · simp only [Bool.not_eq_true] at hf
            rw [hf] at hy
            simp only [Bool.false_eq_true, if_neg, ite_false] at hy
            exact vsize_le_of_mem _ _ hy
        rw [ih n (by omega) x y p o (by omega)]
        rw [ih (vsize (Value.varr la) + vsize (Value.varr ra) - 1) (by omega) x y p o (by
          have e1 : vsize (Value.varr la) = 1 + lsize la := by simp [vsize]
          have e2 : vsize (Value.varr ra) = 1 + lsize ra := by simp [vsize]
          omega)]
      · rename_i le re
        rw [compareDeepF_succ_vmap, compareDeepF_succ_vmap]
        have hbsz : 2 + esize le + esize re ≤ n + 1 := by
          have e1 : vsize (Value.vmap le) = 1 + esize le := by simp [vsize]
          have e2 : vsize (Value.vmap re) = 1 + esize re := by simp [vsize]
          omega
        apply compareMapKeysGo_congr
        intro k lv rv hlv hrv p
        have hlv' : vsize lv ≤ esize le := by
          by_cases hf : o.ignoreKeyOrder = true
          · rw [hf] at hlv
            simp only [if_pos] at hlv
            have := vsize_le_of_lookup _ _ _ hlv
            rw [esize_perm (isortLe_perm entryKeyLe _), esize_sortObjectEntries le] at this
            exact this
          · simp only [Bool.not_eq_true] at hf
            rw [hf] at hlv
            simp only [Bool.false_eq_true, if_neg, ite_false] at hlv
            exact vsize_le_of_lookup _ _ _ hlv
        have hrv' : vsize rv ≤ esize re := by
          by_cases hf : o.ignoreKeyOrder = true
          · rw [hf] at hrv
            simp only [if_pos] at hrv
            have := vsize_le_of_lookup _ _ _ hrv
            rw [esize_perm (isortLe_perm entryKeyLe _), esize_sortObjectEntries re] at this
            exact this
          · simp only [Bool.not_eq_true] at hf
            rw [hf] at hrv
            simp only [Bool.false_eq_true, if_neg, ite_false] at hrv
            exact vsize_le_of_lookup _ _ _ hrv
        rw [ih n (by omega) lv rv p o (by omega)]
        rw [ih (vsize (Value.vmap le) + vsize (Value.vmap re) - 1) (by omega) lv rv p o (by
          have e1 : vsize (Value.vmap le) = 1 + esize le := by simp [vsize]
          have e2 : vsize (Value.vmap re) = 1 + esize re := by simp [vsize]
          omega)]

/-- Fuel irrelevance for the word-diff walk: any two fuels at least the
remaining pointer distance produce the same result, so the
`ll.length + rl.length` bound used by `computeWordDiff` never cuts the
walk short. -/
theorem wordDiffLoop_fuel_irrelevant (dw : String → String → List Hunk) :
    ∀ (f1 : Nat) (f2 : Nat) (ll rl : List DiffLine) (li ri : Nat),
      (ll.length - li) + (rl.length - ri) ≤ f1 →
      (ll.length - li) + (rl.length - ri) ≤ f2 →
      wordDiffLoop dw f1 ll rl li ri = wordDiffLoop dw f2 ll rl li ri := by
  intro f1
  induction f1 using Nat.strong_induction_on with
  | _ f1 ih =>
    intro f2 ll rl li ri h1 h2
    by_cases hcond : li < ll.length ∨ ri < rl.length
    · obtain ⟨n1, rfl⟩ : ∃ n, f1 = n + 1 := ⟨f1 - 1, by omega⟩
      obtain ⟨n2, rfl⟩ : ∃ n, f2 = n + 1 := ⟨f2 - 1, by omega⟩
      rw [wordDiffLoop, wordDiffLoop, if_pos hcond, if_pos hcond]
      cases hL : ll[li]? <;> cases hR : rl[ri]?
      · rfl
      · 
        have hr := (List.getElem?_eq_some_iff.mp hR).1
        dsimp only
        split
        · exact ih n1 (by omega) n2 ll rl li (ri + 1) (by omega) (by omega)
        · exact ih n1 (by omega) n2 ll rl li (ri + 1) (by omega) (by omega)
      · 
        have hl := (List.getElem?_eq_some_iff.mp hL).1
        dsimp only
        split
        · exact ih n1 (by omega) n2 ll rl (li + 1) ri (by omega) (by omega)
        · exact ih n1 (by omega) n2 ll rl (li + 1) (ri + 1) (by omega) (by omega)
      · 
        have hl := (List.getElem?_eq_some_iff.mp hL).1
        have hr := (List.getElem?_eq_some_iff.mp hR).1
        dsimp only
        split
        · refine ih n1 (by omega) n2 _ _ (li + 1) (ri + 1) ?_ ?_ <;>
            simp only [List.length_set] <;> omega
        · split
          · exact ih n1 (by omega) n2 ll rl (li + 1) ri (by omega) (by omega)
          · split
            · exact ih n1 (by omega) n2 ll rl li (ri + 1) (by omega) (by omega)
            · exact ih n1 (by omega) n2 ll rl (li + 1) (ri + 1) (by omega) (by omega)
    · cases f1 with
      | zero =>
        cases f2 with
        | zero => rfl
        | succ m => rw [wordDiffLoop, wordDiffLoop, if_neg hcond]
      | succ m =>
        cases f2 with
        | zero => rw [wordDiffLoop, wordDiffLoop, if_neg hcond]
        | succ m2 => rw [wordDiffLoop, wordDiffLoop, if_neg hcond, if_neg hcond]
